import Mathlib

/-!
# Verification of `mex_FiniteHorizonTrackingController.cpp`

Shallow embedding of the mex entry point
`src/Classes/Controllers/mex/TcpLikeControllers/mex_FiniteHorizonTrackingController.cpp`
(the backward dynamic-programming recursion for the jump-linear
finite-horizon tracking LQ controller) and proofs about it.

Modelling conventions:

* `double` arithmetic is modelled exactly over `ℚ`.
* Armadillo matrices are `Matrix (Fin r) (Fin c) ℚ`.  The dimensions the
  code actually reads are kept as separate parameters:
  `numModes = augA.n_slices`, `sdim = augA.n_rows = augA.n_cols`
  (the code treats `augA`, `augQ`, `terminalK` as square), `bcols =
  augB.n_cols`, `rdim = augR.n_rows = augR.n_cols` (the code sizes the
  outputs and `P3` from `augR.n_rows`, treating `augR` as square).
* Armadillo element-wise operations (`+=`, `=` on fixed-size objects)
  assert equal sizes at runtime and throw otherwise; an uncaught throw
  aborts the mex call with no outputs.  This is modelled with `Option`:
  the guards of `stageStep` are exactly the size conditions that the
  asserts of one loop iteration check, namely
  - `bcols = rdim` — line 89, `RBKB.slice(i) += symmatu(B.t()*K*B)`
    adds a `bcols × bcols` product to an `rdim × rdim` slice;
  - `numModes = sdim` — line 111, `s1 += (*row) * Asigma.col(m)`:
    the code initialises `s1 = zeros(Asigma.n_cols)`, i.e. of length
    `numModes`, and adds length-`sdim` columns to it;
  - `numModes = bcols` — line 112, same for `s2` (length `numModes`
    initialiser `zeros(Bsigma.n_cols)`, length-`bcols` columns).
  When all three hold every remaining operation of the stage is
  size-correct, and when `numModes = 0` both inner loops are empty so
  nothing throws.
* `arma::pinv` is the Moore-Penrose pseudoinverse computed by LAPACK;
  it is external library code, not part of this repository, so the
  model takes it as a function parameter `pinvF`.  Concrete
  instantiations used below are certified Moore-Penrose at every
  matrix they are actually applied to.
-/

open Matrix

namespace FHTC

/-- `arma::symmatu`: reflect the upper triangle (diagonal included)
onto the lower triangle. -/
def symmatu {n : ℕ} (M : Matrix (Fin n) (Fin n) ℚ) : Matrix (Fin n) (Fin n) ℚ :=
  fun i j => if i ≤ j then M i j else M j i

/-- Reindex a matrix along equalities of its `Fin` dimensions. -/
def mcast {a b c e : ℕ} (h1 : a = c) (h2 : b = e)
    (M : Matrix (Fin a) (Fin b) ℚ) : Matrix (Fin c) (Fin e) ℚ :=
  fun i j => M (Fin.cast h1.symm i) (Fin.cast h2.symm j)

/-- Reindex a vector along an equality of its `Fin` dimension. -/
def vcast {a c : ℕ} (h : a = c) (v : Fin a → ℚ) : Fin c → ℚ :=
  fun i => v (Fin.cast h.symm i)

/-- The per-mode system and cost data together with the transition
matrix: the inputs the recursion loop reads (`augA`, `augB`, `augQ`,
`augR`, `transitionMatrix`). -/
structure SysData (numModes sdim bcols rdim : ℕ) where
  augA : Fin numModes → Matrix (Fin sdim) (Fin sdim) ℚ
  augB : Fin numModes → Matrix (Fin sdim) (Fin bcols) ℚ
  augQ : Fin numModes → Matrix (Fin sdim) (Fin sdim) ℚ
  augR : Fin numModes → Matrix (Fin rdim) (Fin rdim) ℚ
  transitionMatrix : Matrix (Fin numModes) (Fin numModes) ℚ

/-- All inputs of the mex function.  `refWeightings` has
`horizon + 1` columns (one per stage `0 .. horizon`), matching how the
code reads its last column (`tail_cols(1)`) and columns `0 .. horizon-1`.
`Qref` is input number 7; the code reads it and never uses it. -/
structure Inputs (numModes sdim bcols rdim horizon : ℕ) extends
    SysData numModes sdim bcols rdim where
  terminalK : Matrix (Fin sdim) (Fin sdim) ℚ
  Qref : Matrix (Fin sdim) (Fin sdim) ℚ
  refWeightings : Matrix (Fin sdim) (Fin (horizon + 1)) ℚ

/-- The value-function state carried between iterations: the cube
`K_k` (one `sdim × sdim` slice per mode) and the matrix `sigma_k`
(one length-`sdim` column per mode). -/
@[ext]
structure VF (numModes sdim : ℕ) where
  K : Fin numModes → Matrix (Fin sdim) (Fin sdim) ℚ
  sigma : Fin numModes → Fin sdim → ℚ

/-- The body of one stage of the loop (lines 78-118) in the case where
every size assertion passes (`hqp : bcols = rdim` discharges the
`RBKB` accumulation; the `s1`/`s2` length conditions are checked by
the caller `stageStep`).  Returns the updated value-function state
plus the gain slices `L_k` and feedforward columns written for this
stage. -/
def stageCore {numModes sdim bcols rdim : ℕ}
    (sys : SysData numModes sdim bcols rdim)
    (pinvF : Matrix (Fin rdim) (Fin rdim) ℚ → Matrix (Fin rdim) (Fin rdim) ℚ)
    (hqp : bcols = rdim) (r : Fin sdim → ℚ) (st : VF numModes sdim) :
    VF numModes sdim ×
      (Fin numModes → Matrix (Fin rdim) (Fin sdim) ℚ) ×
      (Fin numModes → Fin rdim → ℚ) :=
  let QAKA : Fin numModes → Matrix (Fin sdim) (Fin sdim) ℚ :=
    fun i => sys.augQ i + symmatu ((sys.augA i)ᵀ * st.K i * sys.augA i)
  let RBKB : Fin numModes → Matrix (Fin rdim) (Fin rdim) ℚ :=
    fun i => sys.augR i + symmatu (mcast hqp hqp ((sys.augB i)ᵀ * st.K i * sys.augB i))
  let BKA : Fin numModes → Matrix (Fin bcols) (Fin sdim) ℚ :=
    fun i => (sys.augB i)ᵀ * st.K i * sys.augA i
  let Asig : Fin numModes → Fin sdim → ℚ :=
    fun i => (sys.augA i)ᵀ.mulVec (st.sigma i)
  let Bsig : Fin numModes → Fin bcols → ℚ :=
    fun i => (sys.augB i)ᵀ.mulVec (st.sigma i)
  let P1 : Fin numModes → Matrix (Fin sdim) (Fin sdim) ℚ :=
    fun j => ∑ m, sys.transitionMatrix j m • QAKA m
  let P2 : Fin numModes → Matrix (Fin rdim) (Fin sdim) ℚ :=
    fun j => mcast hqp rfl (∑ m, sys.transitionMatrix j m • BKA m)
  let P3 : Fin numModes → Matrix (Fin rdim) (Fin rdim) ℚ :=
    fun j => ∑ m, sys.transitionMatrix j m • RBKB m
  let s1 : Fin numModes → Fin sdim → ℚ :=
    fun j => ∑ m, sys.transitionMatrix j m • Asig m
  let s2 : Fin numModes → Fin rdim → ℚ :=
    fun j => vcast hqp (∑ m, sys.transitionMatrix j m • Bsig m)
  ⟨⟨fun j => P1 j - symmatu ((P2 j)ᵀ * pinvF (P3 j) * P2 j),
    fun j => (fun i => r i + s1 j i) - ((P2 j)ᵀ * pinvF (P3 j)).mulVec (s2 j)⟩,
   fun j => -(pinvF (P3 j) * P2 j),
   fun j => (pinvF (P3 j)).mulVec (s2 j)⟩

/-- One iteration of the `for k` loop, with the runtime size assertions
of armadillo modelled as guards (see the module docstring for the
line-by-line correspondence).  `none` models the mex call aborting with
an uncaught armadillo exception.  With `numModes = 0` both inner loops
are empty, so the stage succeeds and changes nothing. -/
def stageStep {numModes sdim bcols rdim : ℕ}
    (sys : SysData numModes sdim bcols rdim)
    (pinvF : Matrix (Fin rdim) (Fin rdim) ℚ → Matrix (Fin rdim) (Fin rdim) ℚ)
    (r : Fin sdim → ℚ) (st : VF numModes sdim) :
    Option (VF numModes sdim ×
      (Fin numModes → Matrix (Fin rdim) (Fin sdim) ℚ) ×
      (Fin numModes → Fin rdim → ℚ)) :=
  if h0 : numModes = 0 then
    some ⟨st, fun j => (Fin.cast h0 j).elim0, fun j => (Fin.cast h0 j).elim0⟩
  else if hqp : bcols = rdim then
    if _hmn : numModes = sdim then
      if _hmq : numModes = bcols then
        some (stageCore sys pinvF hqp r st)
      else none
    else none
  else none

/-- Initial value-function state (lines 61-66): every `K` slice is
`terminalK` and every `sigma` column is the last column of
`refWeightings`. -/
def initVF {numModes sdim bcols rdim horizon : ℕ}
    (inp : Inputs numModes sdim bcols rdim horizon) : VF numModes sdim :=
  ⟨fun _ => inp.terminalK,
   fun _ => fun i => inp.refWeightings i ⟨horizon, Nat.lt_succ_self horizon⟩⟩

/-- `refWeightings.col kk` as a total function (`0` outside the column
range; the recursion only ever reads columns `0 .. horizon - 1`). -/
def refColAt {numModes sdim bcols rdim horizon : ℕ}
    (inp : Inputs numModes sdim bcols rdim horizon) (kk : ℕ) : Fin sdim → ℚ :=
  fun i => if hk : kk < horizon + 1 then inp.refWeightings i ⟨kk, hk⟩ else 0

/-- Value-function state after processing `d` stages, counting from the
terminal end: the `d`-th processed stage is the loop iteration with
stage index `k = horizon - 1 - (d-1)`. -/
def stateAfter {numModes sdim bcols rdim horizon : ℕ}
    (inp : Inputs numModes sdim bcols rdim horizon)
    (pinvF : Matrix (Fin rdim) (Fin rdim) ℚ → Matrix (Fin rdim) (Fin rdim) ℚ) :
    ℕ → Option (VF numModes sdim)
  | 0 => some (initVF inp)
  | d + 1 =>
    (stateAfter inp pinvF d).bind fun st =>
      (stageStep inp.toSysData pinvF (refColAt inp (horizon - 1 - d)) st).map Prod.fst

/-- The gain and feedforward slices written while processing the stage
at distance `d` from the terminal end (stage index `horizon - 1 - d`). -/
def stageOutAt {numModes sdim bcols rdim horizon : ℕ}
    (inp : Inputs numModes sdim bcols rdim horizon)
    (pinvF : Matrix (Fin rdim) (Fin rdim) ℚ → Matrix (Fin rdim) (Fin rdim) ℚ)
    (d : ℕ) :
    Option ((Fin numModes → Matrix (Fin rdim) (Fin sdim) ℚ) ×
      (Fin numModes → Fin rdim → ℚ)) :=
  (stateAfter inp pinvF d).bind fun st =>
    (stageStep inp.toSysData pinvF (refColAt inp (horizon - 1 - d)) st).map Prod.snd

/-- The two outputs, indexed by stage `k` and mode `j`: the gain cube
sequence `L` (`rdim × sdim` per stage and mode) and the feedforward
matrix sequence (length `rdim` per stage and mode).  The caller
receives them only if every stage ran without a size-assert throw;
the `getD` defaults are never reached when the guard holds. -/
def mexResult {numModes sdim bcols rdim horizon : ℕ}
    (inp : Inputs numModes sdim bcols rdim horizon)
    (pinvF : Matrix (Fin rdim) (Fin rdim) ℚ → Matrix (Fin rdim) (Fin rdim) ℚ) :
    Option ((Fin horizon → Fin numModes → Matrix (Fin rdim) (Fin sdim) ℚ) ×
      (Fin horizon → Fin numModes → Fin rdim → ℚ)) :=
  if (stateAfter inp pinvF horizon).isSome then
    some
      ⟨fun k => ((stageOutAt inp pinvF (horizon - 1 - k.val)).getD
          ⟨fun _ => 0, fun _ => 0⟩).1,
       fun k => ((stageOutAt inp pinvF (horizon - 1 - k.val)).getD
          ⟨fun _ => 0, fun _ => 0⟩).2⟩
  else none

/-- Outcome of one mex call.  `allocated` records whether the two
output `mxArray`s were created: lines 49-52 allocate them
unconditionally, before the recursion runs, so it is always `true`. -/
structure MexOutcome (numModes sdim rdim horizon : ℕ) where
  allocated : Bool
  result : Option ((Fin horizon → Fin numModes → Matrix (Fin rdim) (Fin sdim) ℚ) ×
    (Fin horizon → Fin numModes → Fin rdim → ℚ))

/-- The whole mex call: allocate the outputs (always), then run the
backward recursion. -/
def mexFunction {numModes sdim bcols rdim horizon : ℕ}
    (inp : Inputs numModes sdim bcols rdim horizon)
    (pinvF : Matrix (Fin rdim) (Fin rdim) ℚ → Matrix (Fin rdim) (Fin rdim) ℚ) :
    MexOutcome numModes sdim rdim horizon :=
  ⟨true, mexResult inp pinvF⟩

/-!
## The per-stage quantities, named

A run can only avoid the size asserts when
`bcols = rdim ∧ numModes = sdim ∧ numModes = bcols`, i.e. when all four
dimension parameters coincide.  On that uniform-dimension instance the
quantities of one stage (the spec's `QAKA`, `RBKB`, `BKA`, `Aσ`, `Bσ`,
`P1`, `P2`, `P3`, `s1`, `s2` and the emitted/updated values) get
standalone definitions, and `stageStep_uniform` below proves that
`stageStep` computes exactly them.
-/

variable {d : ℕ}

/-- `QAKA[i] = Q[i] + symmatu(Aᵀ[i]·K_next[i]·A[i])` (line 88). -/
def QAKAof (sys : SysData d d d d) (st : VF d d) (i : Fin d) :
    Matrix (Fin d) (Fin d) ℚ :=
  sys.augQ i + symmatu ((sys.augA i)ᵀ * st.K i * sys.augA i)

/-- `RBKB[i] = R[i] + symmatu(Bᵀ[i]·K_next[i]·B[i])` (line 89). -/
def RBKBof (sys : SysData d d d d) (st : VF d d) (i : Fin d) :
    Matrix (Fin d) (Fin d) ℚ :=
  sys.augR i + symmatu ((sys.augB i)ᵀ * st.K i * sys.augB i)

/-- `BKA[i] = Bᵀ[i]·K_next[i]·A[i]` (line 90). -/
def BKAof (sys : SysData d d d d) (st : VF d d) (i : Fin d) :
    Matrix (Fin d) (Fin d) ℚ :=
  (sys.augB i)ᵀ * st.K i * sys.augA i

/-- `Asigma[i] = Aᵀ[i]·σ_next[i]` (line 91). -/
def AsigOf (sys : SysData d d d d) (st : VF d d) (i : Fin d) : Fin d → ℚ :=
  (sys.augA i)ᵀ.mulVec (st.sigma i)

/-- `Bsigma[i] = Bᵀ[i]·σ_next[i]` (line 92). -/
def BsigOf (sys : SysData d d d d) (st : VF d d) (i : Fin d) : Fin d → ℚ :=
  (sys.augB i)ᵀ.mulVec (st.sigma i)

/-- `P1 = Σ_m T[j,m]·QAKA[m]` (line 108). -/
def P1of (sys : SysData d d d d) (st : VF d d) (j : Fin d) :
    Matrix (Fin d) (Fin d) ℚ :=
  ∑ m, sys.transitionMatrix j m • QAKAof sys st m

/-- `P2 = Σ_m T[j,m]·BKA[m]` (line 109). -/
def P2of (sys : SysData d d d d) (st : VF d d) (j : Fin d) :
    Matrix (Fin d) (Fin d) ℚ :=
  ∑ m, sys.transitionMatrix j m • BKAof sys st m

/-- `P3 = Σ_m T[j,m]·RBKB[m]` (line 110). -/
def P3of (sys : SysData d d d d) (st : VF d d) (j : Fin d) :
    Matrix (Fin d) (Fin d) ℚ :=
  ∑ m, sys.transitionMatrix j m • RBKBof sys st m

/-- `s1 = Σ_m T[j,m]·Asigma[m]` (line 111). -/
def s1of (sys : SysData d d d d) (st : VF d d) (j : Fin d) : Fin d → ℚ :=
  ∑ m, sys.transitionMatrix j m • AsigOf sys st m

/-- `s2 = Σ_m T[j,m]·Bsigma[m]` (line 112). -/
def s2of (sys : SysData d d d d) (st : VF d d) (j : Fin d) : Fin d → ℚ :=
  ∑ m, sys.transitionMatrix j m • BsigOf sys st m

/-- The gain written for the current stage and mode `j`:
`L = -pinv(P3)·P2` (line 116). -/
def gainOf (sys : SysData d d d d)
    (pinvF : Matrix (Fin d) (Fin d) ℚ → Matrix (Fin d) (Fin d) ℚ)
    (st : VF d d) (j : Fin d) : Matrix (Fin d) (Fin d) ℚ :=
  -(pinvF (P3of sys st j) * P2of sys st j)

/-- The feedforward written for the current stage and mode `j`:
`pinv(P3)·s2` (line 117). -/
def ffOf (sys : SysData d d d d)
    (pinvF : Matrix (Fin d) (Fin d) ℚ → Matrix (Fin d) (Fin d) ℚ)
    (st : VF d d) (j : Fin d) : Fin d → ℚ :=
  (pinvF (P3of sys st j)).mulVec (s2of sys st j)

/-- The value-function `K` update:
`K[j] = P1 - symmatu(P2ᵀ·pinv(P3)·P2)` (line 114). -/
def KupdOf (sys : SysData d d d d)
    (pinvF : Matrix (Fin d) (Fin d) ℚ → Matrix (Fin d) (Fin d) ℚ)
    (st : VF d d) (j : Fin d) : Matrix (Fin d) (Fin d) ℚ :=
  P1of sys st j - symmatu ((P2of sys st j)ᵀ * pinvF (P3of sys st j) * P2of sys st j)

/-- The value-function `σ` update:
`σ[j] = refWeightings.col(k) + s1 - P2ᵀ·pinv(P3)·s2` (line 115). -/
def sigUpdOf (sys : SysData d d d d)
    (pinvF : Matrix (Fin d) (Fin d) ℚ → Matrix (Fin d) (Fin d) ℚ)
    (r : Fin d → ℚ) (st : VF d d) (j : Fin d) : Fin d → ℚ :=
  (fun i => r i + s1of sys st j i) -
    ((P2of sys st j)ᵀ * pinvF (P3of sys st j)).mulVec (s2of sys st j)

/-- The spec's symmetrisation `sym(X) = (X + Xᵀ)/2`. -/
def symHalf {n : ℕ} (M : Matrix (Fin n) (Fin n) ℚ) : Matrix (Fin n) (Fin n) ℚ :=
  (2 : ℚ)⁻¹ • (M + Mᵀ)

/-- The claim-side mixture `P3 = Σ_m T[j,m]·(R[m] + sym(Bᵀ[m]·K_next[m]·B[m]))`
with `sym(X) = (X + Xᵀ)/2` as the spec defines it (to be compared with the
source's `P3of`, which uses `symmatu`). -/
def specP3of (sys : SysData d d d d) (st : VF d d) (j : Fin d) :
    Matrix (Fin d) (Fin d) ℚ :=
  ∑ m, sys.transitionMatrix j m •
    (sys.augR m + symHalf ((sys.augB m)ᵀ * st.K m * sys.augB m))


/-!
## Concrete instantiations

`pinv1` — Modelled from the spec: `arma::pinv` on a `1 × 1` matrix.
The Moore-Penrose pseudoinverse of `[x]` is `[x⁻¹]` for `x ≠ 0` and
`[0]` for `x = 0`; `ℚ`'s convention `0⁻¹ = 0` captures both cases. -/
def pinv1 (M : Matrix (Fin 1) (Fin 1) ℚ) : Matrix (Fin 1) (Fin 1) ℚ := !![(M 0 0)⁻¹]

/-- A degenerate stand-in for `arma::pinv` used only on runs in which
every `P3` is the zero matrix, whose Moore-Penrose pseudoinverse is the
zero matrix (see `pinv_of_zero_unique`). -/
def pinvZero {n : ℕ} : Matrix (Fin n) (Fin n) ℚ → Matrix (Fin n) (Fin n) ℚ :=
  fun _ => 0

/-- The scalar instance of the inputs: `numModes = n = p = 1`,
transition matrix `[[1]]`, reference sequence `ref` read columnwise. -/
def mkScalarInputs (a b q r kT : ℚ) (h : ℕ) (ref : ℕ → ℚ) : Inputs 1 1 1 1 h :=
  ⟨⟨fun _ => !![a], fun _ => !![b], fun _ => !![q], fun _ => !![r], !![1]⟩,
   !![kT], !![0], Matrix.of fun _ c => ref c.val⟩

/-- Modelled from the spec (testable property "single-mode reduction"):
the standard single-mode finite-horizon linear-quadratic tracking
Riccati recursion for a scalar system, indexed by distance `t` from the
terminal stage.  `lqrK`/`lqrSigma` are the quadratic/affine cost-to-go,
`lqrGain`/`lqrFF` the gain and feedforward of the stage at distance `t`. -/
def lqrK (a b q r kT : ℚ) : ℕ → ℚ
  | 0 => kT
  | t + 1 =>
    q + a * lqrK a b q r kT t * a -
      (b * lqrK a b q r kT t * a) * (r + b * lqrK a b q r kT t * b)⁻¹ *
        (b * lqrK a b q r kT t * a)

def lqrGain (a b q r kT : ℚ) (t : ℕ) : ℚ :=
  -((r + b * lqrK a b q r kT t * b)⁻¹ * (b * lqrK a b q r kT t * a))

def lqrSigma (a b q r kT : ℚ) (h : ℕ) (ref : ℕ → ℚ) : ℕ → ℚ
  | 0 => ref h
  | t + 1 =>
    ref (h - 1 - t) + a * lqrSigma a b q r kT h ref t -
      (b * lqrK a b q r kT t * a) * (r + b * lqrK a b q r kT t * b)⁻¹ *
        (b * lqrSigma a b q r kT h ref t)

def lqrFF (a b q r kT : ℚ) (h : ℕ) (ref : ℕ → ℚ) (t : ℕ) : ℚ :=
  (r + b * lqrK a b q r kT t * b)⁻¹ * (b * lqrSigma a b q r kT h ref t)

/-- Dimension-inconsistent input: `augB` is `1 × 2` while `augR` is
`1 × 1`, i.e. `B`'s input dimension is inconsistent with `R`
(`numModes = 1`, `sdim = 1`, `bcols = 2`, `rdim = 1`, horizon `1`). -/
def cInp2 : Inputs 1 1 2 1 1 :=
  ⟨⟨fun _ => !![1], fun _ => !![0, 0], fun _ => !![1], fun _ => !![1], !![1]⟩,
   !![1], !![0], Matrix.of fun _ _ => 0⟩

/-- A dimensionally consistent input with state dimension `2` different
from the mode count `1` (and zero input cost `R = [0]`): `A`, `Q`,
`terminalK` are `2 × 2`, `B` is `2 × 1`, `R` is `1 × 1`, the transition
matrix is `[[1]]`, horizon `1`. -/
def cInp3 : Inputs 1 2 1 1 1 :=
  ⟨⟨fun _ => 1, fun _ => !![0; 0], fun _ => 1, fun _ => !![0], !![1]⟩,
   1, 1, Matrix.of fun _ _ => 0⟩

/-- Uniform-dimension input (`2` everywhere) with a non-symmetric
state-cost matrix `Q = [[0,1],[0,0]]`, `A = B = 0`, `R = 0`, identity
transition matrix, zero terminal cost and reference, horizon `1`. -/
def cInp4 : Inputs 2 2 2 2 1 :=
  ⟨⟨fun _ => 0, fun _ => 0, fun _ => !![0, 1; 0, 0], fun _ => 0, 1⟩,
   0, 0, Matrix.of fun _ _ => 0⟩

/-- System data (`2` everywhere) with non-symmetric state cost
`Q = [[0,2],[0,0]]`, `A = B = I`, `R = 0`, identity transition matrix. -/
def sysC1 : SysData 2 2 2 2 :=
  ⟨fun _ => 1, fun _ => 1, fun _ => !![0, 2; 0, 0], fun _ => 0, 1⟩

/-- Uniform-dimension input (`2` everywhere) built on `sysC1` with
identity terminal cost, zero reference, horizon `2`. -/
def cInpC1 : Inputs 2 2 2 2 2 := ⟨sysC1, 1, 0, Matrix.of fun _ _ => 0⟩

/-- The initial value-function state of `cInpC1`. -/
def vfInitC1 : VF 2 2 := ⟨fun _ => 1, fun _ => fun _ => 0⟩

/-- The value-function state of `cInpC1` after one stage: every `K`
slice equals the (non-symmetric) `Q`. -/
def vfMidC1 : VF 2 2 := ⟨fun _ => !![0, 2; 0, 0], fun _ => fun _ => 0⟩

/-- Stand-in for `arma::pinv` on the run of `cInpC1`: it is applied
only to `1` (the identity), `[[0,2],[2,0]]` and — on the spec side —
`[[0,1],[1,0]]`, and on each of those it returns the true inverse,
which is the Moore-Penrose pseudoinverse of an invertible matrix (the
counterexample theorem states the product identities certifying this). -/
def pinvC1 : Matrix (Fin 2) (Fin 2) ℚ → Matrix (Fin 2) (Fin 2) ℚ := fun M =>
  if M = 1 then 1
  else if M = !![0, 2; 2, 0] then !![0, (1 : ℚ)/2; 1/2, 0]
  else if M = !![0, 1; 1, 0] then !![0, 1; 1, 0]
  else 0

/-!
## Basic lemmas
-/

theorem symmatu_transpose {n : ℕ} (M : Matrix (Fin n) (Fin n) ℚ) :
    (symmatu M)ᵀ = symmatu M := by
  ext i j
  simp only [Matrix.transpose_apply, symmatu]
  rcases le_total i j with h | h
  · rw [if_pos h]
    by_cases h2 : j ≤ i
    · have hij : i = j := le_antisymm h h2
      subst hij
      rw [if_pos le_rfl]
    · rw [if_neg h2]
  · rw [if_pos h]
    by_cases h2 : i ≤ j
    · have hij : i = j := le_antisymm h2 h
      subst hij
      rw [if_pos le_rfl]
    · rw [if_neg h2]

theorem symmatu_of_symm {n : ℕ} (M : Matrix (Fin n) (Fin n) ℚ)
    (h : Mᵀ = M) : symmatu M = M := by
  ext i j
  simp only [symmatu]
  by_cases hij : i ≤ j
  · rw [if_pos hij]
  · rw [if_neg hij]
    calc M j i = Mᵀ i j := rfl
    _ = M i j := by rw [h]

/-- On the uniform-dimension instance `stageStep` never throws and
computes exactly the named per-stage quantities. -/
theorem stageStep_uniform (sys : SysData d d d d)
    (pinvF : Matrix (Fin d) (Fin d) ℚ → Matrix (Fin d) (Fin d) ℚ)
    (r : Fin d → ℚ) (st : VF d d) :
    stageStep sys pinvF r st =
      some ⟨⟨fun j => KupdOf sys pinvF st j, fun j => sigUpdOf sys pinvF r st j⟩,
        fun j => gainOf sys pinvF st j, fun j => ffOf sys pinvF st j⟩ := by
  by_cases hd : d = 0
  · subst hd
    rw [stageStep, dif_pos rfl]
    refine congrArg some ?_
    refine Prod.ext ?_ (Prod.ext ?_ ?_)
    · exact VF.ext (funext fun j => j.elim0) (funext fun j => j.elim0)
    · exact funext fun j => j.elim0
    · exact funext fun j => j.elim0
  · rw [stageStep, dif_neg hd, dif_pos rfl, dif_pos rfl, dif_pos rfl]
    rfl

variable {numModes sdim bcols rdim horizon : ℕ}

theorem stateAfter_zero (inp : Inputs numModes sdim bcols rdim horizon)
    (pinvF : Matrix (Fin rdim) (Fin rdim) ℚ → Matrix (Fin rdim) (Fin rdim) ℚ) :
    stateAfter inp pinvF 0 = some (initVF inp) := rfl

theorem stateAfter_succ (inp : Inputs numModes sdim bcols rdim horizon)
    (pinvF : Matrix (Fin rdim) (Fin rdim) ℚ → Matrix (Fin rdim) (Fin rdim) ℚ)
    (dd : ℕ) :
    stateAfter inp pinvF (dd + 1) =
      (stateAfter inp pinvF dd).bind (fun st =>
        (stageStep inp.toSysData pinvF (refColAt inp (horizon - 1 - dd)) st).map
          Prod.fst) := rfl

/-- If `bcols ≠ rdim` (for example `B`'s input dimension inconsistent
with `R`) and there is at least one mode, the stage throws. -/
theorem stageStep_none_of_bcols_ne (sys : SysData numModes sdim bcols rdim)
    (pinvF : Matrix (Fin rdim) (Fin rdim) ℚ → Matrix (Fin rdim) (Fin rdim) ℚ)
    (r : Fin sdim → ℚ) (st : VF numModes sdim)
    (hb : bcols ≠ rdim) (hm : numModes ≠ 0) :
    stageStep sys pinvF r st = none := by
  rw [stageStep, dif_neg hm, dif_neg hb]

theorem stateAfter_none_succ (inp : Inputs numModes sdim bcols rdim horizon)
    (pinvF : Matrix (Fin rdim) (Fin rdim) ℚ → Matrix (Fin rdim) (Fin rdim) ℚ)
    (dd : ℕ) (h : stateAfter inp pinvF dd = none) :
    stateAfter inp pinvF (dd + 1) = none := by
  rw [stateAfter_succ, h]
  rfl

theorem stateAfter_isSome_pred (inp : Inputs numModes sdim bcols rdim horizon)
    (pinvF : Matrix (Fin rdim) (Fin rdim) ℚ → Matrix (Fin rdim) (Fin rdim) ℚ)
    (dd : ℕ) (h : (stateAfter inp pinvF (dd + 1)).isSome = true) :
    (stateAfter inp pinvF dd).isSome = true := by
  rw [stateAfter_succ] at h
  cases hx : stateAfter inp pinvF dd with
  | none => rw [hx] at h; simp at h
  | some st => rfl

theorem stateAfter_isSome_of_le (inp : Inputs numModes sdim bcols rdim horizon)
    (pinvF : Matrix (Fin rdim) (Fin rdim) ℚ → Matrix (Fin rdim) (Fin rdim) ℚ)
    (dd ee : ℕ) (hle : dd ≤ ee)
    (h : (stateAfter inp pinvF ee).isSome = true) :
    (stateAfter inp pinvF dd).isSome = true := by
  induction ee with
  | zero =>
    have hdd : dd = 0 := Nat.le_zero.mp hle
    subst hdd
    exact h
  | succ e ih =>
    rcases Nat.lt_succ_iff_lt_or_eq.mp (Nat.lt_succ_of_le hle) with hlt | heq
    · exact ih (Nat.lt_succ_iff.mp hlt) (stateAfter_isSome_pred inp pinvF e h)
    · subst heq
      exact h

/-- Destructure one successful recursion step. -/
theorem stateAfter_succ_elim (inp : Inputs numModes sdim bcols rdim horizon)
    (pinvF : Matrix (Fin rdim) (Fin rdim) ℚ → Matrix (Fin rdim) (Fin rdim) ℚ)
    (dd : ℕ) (st' : VF numModes sdim)
    (h : stateAfter inp pinvF (dd + 1) = some st') :
    ∃ st out, stateAfter inp pinvF dd = some st ∧
      stageStep inp.toSysData pinvF (refColAt inp (horizon - 1 - dd)) st =
        some ⟨st', out⟩ := by
  rw [stateAfter_succ] at h
  rcases Option.bind_eq_some.mp h with ⟨st, hst, hmap⟩
  rcases Option.map_eq_some'.mp hmap with ⟨pair, hpair, hfst⟩
  refine ⟨st, pair.2, hst, ?_⟩
  rw [hpair, ← hfst]


theorem pinv1_apply (M : Matrix (Fin 1) (Fin 1) ℚ) (i i' : Fin 1) :
    pinv1 M i i' = (M 0 0)⁻¹ := by
  have hi : i = 0 := Subsingleton.elim i 0
  have hi' : i' = 0 := Subsingleton.elim i' 0
  subst hi; subst hi'
  rfl


theorem one_one_apply (x : ℚ) (i i' : Fin 1) :
    (!![x] : Matrix (Fin 1) (Fin 1) ℚ) i i' = x := by
  have hi : i = 0 := Subsingleton.elim i 0
  have hi' : i' = 0 := Subsingleton.elim i' 0
  subst hi; subst hi'
  rfl

theorem mul_apply_one {X Y : Matrix (Fin 1) (Fin 1) ℚ} (i i' : Fin 1) :
    (X * Y) i i' = X i 0 * Y 0 i' := by
  rw [Matrix.mul_apply, Fin.sum_univ_one]

theorem mulVec_apply_one {X : Matrix (Fin 1) (Fin 1) ℚ} {v : Fin 1 → ℚ} (i : Fin 1) :
    X.mulVec v i = X i 0 * v 0 := by
  simp only [Matrix.mulVec, Matrix.dotProduct, Fin.sum_univ_one]

theorem symmatu_apply_one (M : Matrix (Fin 1) (Fin 1) ℚ) (i i' : Fin 1) :
    symmatu M i i' = M 0 0 := by
  have hi : i = 0 := Subsingleton.elim i 0
  have hi' : i' = 0 := Subsingleton.elim i' 0
  subst hi; subst hi'
  simp [symmatu]

theorem P1of_scalar (a b q r kT : ℚ) (h : ℕ) (ref : ℕ → ℚ)
    (st : VF 1 1) (j i i' : Fin 1) :
    P1of (mkScalarInputs a b q r kT h ref).toSysData st j i i' =
      q + a * st.K 0 0 0 * a := by
  have hi : i = 0 := Subsingleton.elim i 0
  have hi' : i' = 0 := Subsingleton.elim i' 0
  subst hi; subst hi'
  simp only [P1of, QAKAof, Fin.sum_univ_one, Matrix.smul_apply,
    Matrix.add_apply, symmatu_apply_one, mul_apply_one, Matrix.transpose_apply,
    mkScalarInputs, one_one_apply, smul_eq_mul]
  ring

theorem P2of_scalar (a b q r kT : ℚ) (h : ℕ) (ref : ℕ → ℚ)
    (st : VF 1 1) (j i i' : Fin 1) :
    P2of (mkScalarInputs a b q r kT h ref).toSysData st j i i' =
      b * st.K 0 0 0 * a := by
  have hi : i = 0 := Subsingleton.elim i 0
  have hi' : i' = 0 := Subsingleton.elim i' 0
  subst hi; subst hi'
  simp only [P2of, BKAof, Fin.sum_univ_one, Matrix.smul_apply,
    mul_apply_one, Matrix.transpose_apply, mkScalarInputs, one_one_apply, smul_eq_mul]
  ring

theorem P3of_scalar (a b q r kT : ℚ) (h : ℕ) (ref : ℕ → ℚ)
    (st : VF 1 1) (j i i' : Fin 1) :
    P3of (mkScalarInputs a b q r kT h ref).toSysData st j i i' =
      r + b * st.K 0 0 0 * b := by
  have hi : i = 0 := Subsingleton.elim i 0
  have hi' : i' = 0 := Subsingleton.elim i' 0
  subst hi; subst hi'
  simp only [P3of, RBKBof, Fin.sum_univ_one, Matrix.smul_apply,
    Matrix.add_apply, symmatu_apply_one, mul_apply_one, Matrix.transpose_apply,
    mkScalarInputs, one_one_apply, smul_eq_mul]
  ring

theorem s1of_scalar (a b q r kT : ℚ) (h : ℕ) (ref : ℕ → ℚ)
    (st : VF 1 1) (j x : Fin 1) :
    s1of (mkScalarInputs a b q r kT h ref).toSysData st j x =
      a * st.sigma 0 0 := by
  have hx : x = 0 := Subsingleton.elim x 0
  subst hx
  simp only [s1of, AsigOf, Fin.sum_univ_one, Pi.smul_apply, smul_eq_mul,
    mulVec_apply_one, Matrix.transpose_apply, mkScalarInputs, one_one_apply, smul_eq_mul]
  ring

theorem s2of_scalar (a b q r kT : ℚ) (h : ℕ) (ref : ℕ → ℚ)
    (st : VF 1 1) (j x : Fin 1) :
    s2of (mkScalarInputs a b q r kT h ref).toSysData st j x =
      b * st.sigma 0 0 := by
  have hx : x = 0 := Subsingleton.elim x 0
  subst hx
  simp only [s2of, BsigOf, Fin.sum_univ_one, Pi.smul_apply, smul_eq_mul,
    mulVec_apply_one, Matrix.transpose_apply, mkScalarInputs, one_one_apply, smul_eq_mul]
  ring



/-- If `bcols = rdim` but `numModes ≠ sdim` (with at least one mode),
the `s1` accumulation throws and the stage fails. -/
theorem stageStep_none_of_sdim_ne (sys : SysData numModes sdim bcols rdim)
    (pinvF : Matrix (Fin rdim) (Fin rdim) ℚ → Matrix (Fin rdim) (Fin rdim) ℚ)
    (r : Fin sdim → ℚ) (st : VF numModes sdim)
    (hb : bcols = rdim) (hm : numModes ≠ 0) (hs : numModes ≠ sdim) :
    stageStep sys pinvF r st = none := by
  rw [stageStep, dif_neg hm, dif_pos hb, dif_neg hs]

theorem mexResult_of_none (inp : Inputs numModes sdim bcols rdim horizon)
    (pinvF : Matrix (Fin rdim) (Fin rdim) ℚ → Matrix (Fin rdim) (Fin rdim) ℚ)
    (h : stateAfter inp pinvF horizon = none) :
    mexResult inp pinvF = none := by
  rw [mexResult, if_neg]
  rw [h]
  exact fun hc => nomatch hc

/-- Two input structures with the same system data, terminal cost and
reference weightings produce the same value-function states. -/
theorem stateAfter_congr (inp inp' : Inputs numModes sdim bcols rdim horizon)
    (pinvF : Matrix (Fin rdim) (Fin rdim) ℚ → Matrix (Fin rdim) (Fin rdim) ℚ)
    (hsys : inp'.toSysData = inp.toSysData)
    (hK : inp'.terminalK = inp.terminalK)
    (href : inp'.refWeightings = inp.refWeightings) (dd : ℕ) :
    stateAfter inp' pinvF dd = stateAfter inp pinvF dd := by
  induction dd with
  | zero =>
    rw [stateAfter_zero, stateAfter_zero]
    unfold initVF
    rw [hK, href]
  | succ dd ih =>
    rw [stateAfter_succ, stateAfter_succ, ih, hsys]
    unfold refColAt
    rw [href]

/-- Same hypotheses, same per-stage outputs. -/
theorem stageOutAt_congr (inp inp' : Inputs numModes sdim bcols rdim horizon)
    (pinvF : Matrix (Fin rdim) (Fin rdim) ℚ → Matrix (Fin rdim) (Fin rdim) ℚ)
    (hsys : inp'.toSysData = inp.toSysData)
    (hK : inp'.terminalK = inp.terminalK)
    (href : inp'.refWeightings = inp.refWeightings) (dd : ℕ) :
    stageOutAt inp' pinvF dd = stageOutAt inp pinvF dd := by
  rw [stageOutAt, stageOutAt, stateAfter_congr inp inp' pinvF hsys hK href, hsys]
  unfold refColAt
  rw [href]

/-- Same hypotheses, same whole outcome. -/
theorem mexFunction_congr (inp inp' : Inputs numModes sdim bcols rdim horizon)
    (pinvF : Matrix (Fin rdim) (Fin rdim) ℚ → Matrix (Fin rdim) (Fin rdim) ℚ)
    (hsys : inp'.toSysData = inp.toSysData)
    (hK : inp'.terminalK = inp.terminalK)
    (href : inp'.refWeightings = inp.refWeightings) :
    mexFunction inp' pinvF = mexFunction inp pinvF := by
  have hsa := stateAfter_congr inp inp' pinvF hsys hK href
  have hso := stageOutAt_congr inp inp' pinvF hsys hK href
  unfold mexFunction mexResult
  simp only [hsa, hso]

theorem stageStep_scalar (a b q r kT : ℚ) (h : ℕ) (ref : ℕ → ℚ)
    (rc : Fin 1 → ℚ) (st : VF 1 1) :
    stageStep (mkScalarInputs a b q r kT h ref).toSysData pinv1 rc st =
      some ⟨⟨fun _ => !![q + a * st.K 0 0 0 * a -
              (b * st.K 0 0 0 * a) * (r + b * st.K 0 0 0 * b)⁻¹ *
                (b * st.K 0 0 0 * a)],
            fun _ _ => rc 0 + a * st.sigma 0 0 -
              (b * st.K 0 0 0 * a) * (r + b * st.K 0 0 0 * b)⁻¹ *
                (b * st.sigma 0 0)⟩,
          fun _ => !![-((r + b * st.K 0 0 0 * b)⁻¹ * (b * st.K 0 0 0 * a))],
          fun _ _ => (r + b * st.K 0 0 0 * b)⁻¹ * (b * st.sigma 0 0)⟩ := by
  rw [stageStep_uniform]
  refine congrArg some ?_
  refine Prod.ext ?_ (Prod.ext ?_ ?_)
  · refine VF.ext (funext fun j => ?_) (funext fun j => ?_)
    · ext i i'
      simp only [KupdOf, Matrix.sub_apply, symmatu_apply_one, mul_apply_one,
        Matrix.transpose_apply, P1of_scalar, P2of_scalar, P3of_scalar,
        pinv1_apply, one_one_apply]
    · funext x
      simp only [sigUpdOf, Pi.sub_apply, mulVec_apply_one, mul_apply_one,
        Matrix.transpose_apply, P2of_scalar, s1of_scalar, s2of_scalar,
        pinv1_apply]
      rw [P3of_scalar]
      have hx : x = 0 := Subsingleton.elim x 0
      subst hx
      ring
  · funext j
    ext i i'
    simp only [Matrix.neg_apply, gainOf, mul_apply_one, P2of_scalar,
      pinv1_apply, one_one_apply, P3of_scalar]
  · funext j x
    simp only [ffOf, mulVec_apply_one, s2of_scalar, pinv1_apply, P3of_scalar]


theorem refColAt_scalar (a b q r kT : ℚ) (h : ℕ) (ref : ℕ → ℚ) (t : ℕ)
    (x : Fin 1) :
    refColAt (mkScalarInputs a b q r kT h ref) (h - 1 - t) x = ref (h - 1 - t) := by
  rw [refColAt, dif_pos (by omega)]
  rfl

theorem stateAfter_scalar (a b q r kT : ℚ) (h : ℕ) (ref : ℕ → ℚ) (t : ℕ) :
    stateAfter (mkScalarInputs a b q r kT h ref) pinv1 t =
      some ⟨fun _ => !![lqrK a b q r kT t],
            fun _ _ => lqrSigma a b q r kT h ref t⟩ := by
  induction t with
  | zero =>
    rw [stateAfter_zero]
    refine congrArg some ?_
    refine VF.ext rfl ?_
    funext i x
    rfl
  | succ t ih =>
    rw [stateAfter_succ, ih]
    show (stageStep (mkScalarInputs a b q r kT h ref).toSysData pinv1
        (refColAt (mkScalarInputs a b q r kT h ref) (h - 1 - t)) _).map Prod.fst = _
    rw [stageStep_scalar]
    refine congrArg some ?_
    refine VF.ext ?_ ?_
    · funext j
      show !![q + a * lqrK a b q r kT t * a -
          (b * lqrK a b q r kT t * a) * (r + b * lqrK a b q r kT t * b)⁻¹ *
            (b * lqrK a b q r kT t * a)] = !![lqrK a b q r kT (t + 1)]
      rw [lqrK]
    · funext j x
      show refColAt (mkScalarInputs a b q r kT h ref) (h - 1 - t) 0 +
          a * lqrSigma a b q r kT h ref t -
          (b * lqrK a b q r kT t * a) * (r + b * lqrK a b q r kT t * b)⁻¹ *
            (b * lqrSigma a b q r kT h ref t) = lqrSigma a b q r kT h ref (t + 1)
      rw [refColAt_scalar, lqrSigma]

theorem stageOutAt_scalar (a b q r kT : ℚ) (h : ℕ) (ref : ℕ → ℚ) (t : ℕ) :
    stageOutAt (mkScalarInputs a b q r kT h ref) pinv1 t =
      some ⟨fun _ => !![lqrGain a b q r kT t],
            fun _ _ => lqrFF a b q r kT h ref t⟩ := by
  rw [stageOutAt, stateAfter_scalar]
  show (stageStep (mkScalarInputs a b q r kT h ref).toSysData pinv1
      (refColAt (mkScalarInputs a b q r kT h ref) (h - 1 - t)) _).map Prod.snd = _
  rw [stageStep_scalar]
  refine congrArg some ?_
  refine Prod.ext ?_ ?_
  · funext j
    show !![-((r + b * lqrK a b q r kT t * b)⁻¹ *
      (b * lqrK a b q r kT t * a))] = !![lqrGain a b q r kT t]
    rw [lqrGain]
  · funext j x
    show (r + b * lqrK a b q r kT t * b)⁻¹ *
      (b * lqrSigma a b q r kT h ref t) = lqrFF a b q r kT h ref t
    rw [lqrFF]

theorem sum_row_smul_const {d : ℕ} {M : Type} [AddCommMonoid M] [Module ℚ M]
    (T : Matrix (Fin d) (Fin d) ℚ) (j : Fin d) (hT : ∑ m, T j m = 1)
    (X : M) : ∑ m : Fin d, T j m • X = X := by
  rw [← Finset.sum_smul, hT, one_smul]

/-- When the per-mode data and the value-function state do not depend
on the mode and the transition row sums to one, the stage mixtures
collapse to the single-mode quantities. -/
theorem stage_quantities_const {d : ℕ}
    (A B Q R T : Matrix (Fin d) (Fin d) ℚ)
    (KK : Matrix (Fin d) (Fin d) ℚ) (sg : Fin d → ℚ) (j : Fin d)
    (hT : ∑ m, T j m = 1) :
    P1of ⟨fun _ => A, fun _ => B, fun _ => Q, fun _ => R, T⟩
        ⟨fun _ => KK, fun _ => sg⟩ j = Q + symmatu (Aᵀ * KK * A) ∧
    P2of ⟨fun _ => A, fun _ => B, fun _ => Q, fun _ => R, T⟩
        ⟨fun _ => KK, fun _ => sg⟩ j = Bᵀ * KK * A ∧
    P3of ⟨fun _ => A, fun _ => B, fun _ => Q, fun _ => R, T⟩
        ⟨fun _ => KK, fun _ => sg⟩ j = R + symmatu (Bᵀ * KK * B) ∧
    s1of ⟨fun _ => A, fun _ => B, fun _ => Q, fun _ => R, T⟩
        ⟨fun _ => KK, fun _ => sg⟩ j = Aᵀ.mulVec sg ∧
    s2of ⟨fun _ => A, fun _ => B, fun _ => Q, fun _ => R, T⟩
        ⟨fun _ => KK, fun _ => sg⟩ j = Bᵀ.mulVec sg ∧
    specP3of ⟨fun _ => A, fun _ => B, fun _ => Q, fun _ => R, T⟩
        ⟨fun _ => KK, fun _ => sg⟩ j = R + symHalf (Bᵀ * KK * B) := by
  exact ⟨sum_row_smul_const T j hT (Q + symmatu (Aᵀ * KK * A)),
    sum_row_smul_const T j hT (Bᵀ * KK * A),
    sum_row_smul_const T j hT (R + symmatu (Bᵀ * KK * B)),
    sum_row_smul_const T j hT (Aᵀ.mulVec sg),
    sum_row_smul_const T j hT (Bᵀ.mulVec sg),
    sum_row_smul_const T j hT (R + symHalf (Bᵀ * KK * B))⟩

theorem identity_rows_sum_one {d : ℕ} (j : Fin d) :
    ∑ m, (1 : Matrix (Fin d) (Fin d) ℚ) j m = 1 := by
  simp [Matrix.one_apply]

/-!
## Claim theorems
-/

/-- C6: before the first recursion step (conceptual stage
`N = horizonLength`) the value-function state is initialised
identically for every mode `i`: `K[i]` equals the `TerminalCost`
matrix and `σ[i]` equals the last column (index `horizonLength`) of
the reference-weighting sequence. -/
theorem terminal_initialization {numModes sdim bcols rdim horizon : ℕ}
    (inp : Inputs numModes sdim bcols rdim horizon)
    (pinvF : Matrix (Fin rdim) (Fin rdim) ℚ → Matrix (Fin rdim) (Fin rdim) ℚ) :
    stateAfter inp pinvF 0 = some (initVF inp) ∧
    (∀ i, (initVF inp).K i = inp.terminalK) ∧
    (∀ i x, (initVF inp).sigma i x =
      inp.refWeightings x ⟨horizon, Nat.lt_succ_self horizon⟩) :=
  ⟨rfl, fun _ => rfl, fun _ _ => rfl⟩

/-- C10: the two outputs are independent of the `Qref` input — two
calls whose inputs are identical except for `Qref` produce identical
outcomes, because `Qref` is read from the argument list but never used
in any computation. -/
theorem qref_independence {numModes sdim bcols rdim horizon : ℕ}
    (sys : SysData numModes sdim bcols rdim)
    (tK Qr1 Qr2 : Matrix (Fin sdim) (Fin sdim) ℚ)
    (rws : Matrix (Fin sdim) (Fin (horizon + 1)) ℚ)
    (pinvF : Matrix (Fin rdim) (Fin rdim) ℚ → Matrix (Fin rdim) (Fin rdim) ℚ) :
    mexFunction ⟨sys, tK, Qr1, rws⟩ pinvF =
      mexFunction ⟨sys, tK, Qr2, rws⟩ pinvF :=
  mexFunction_congr ⟨sys, tK, Qr2, rws⟩ ⟨sys, tK, Qr1, rws⟩ pinvF rfl rfl rfl

/-- C2, counterexample: on the input `cInp2`, whose `B` has input
dimension `2` inconsistent with the `1 × 1` matrix `R`, the call still
allocates both output arrays (`allocated = true`), contradicting the
claim that it fails before any computation starts and does not
allocate output storage; no result is produced. -/
theorem invalid_dimensions_cex :
    (mexFunction cInp2 pinv1).allocated = true ∧
    (mexFunction cInp2 pinv1).result = none := by
  constructor
  · rfl
  · show mexResult cInp2 pinv1 = none
    apply mexResult_of_none
    rw [stateAfter_succ, stateAfter_zero]
    show (stageStep cInp2.toSysData pinv1 (refColAt cInp2 (1 - 1 - 0))
      (initVF cInp2)).map Prod.fst = none
    rw [stageStep_none_of_bcols_ne cInp2.toSysData pinv1 _ _ (by decide) (by decide)]
    rfl

/-- C2, amended: the code performs no dimension validation.  It
allocates both output arrays unconditionally before the recursion
starts; a dimension-inconsistent input (here: `B`'s input dimension
different from `R`'s) instead makes the matrix library's size
assertion throw during the first stage of the recursion — after
allocation — and no result is produced. -/
theorem invalid_dimensions_behavior {numModes sdim bcols rdim horizon : ℕ}
    (inp : Inputs numModes sdim bcols rdim horizon)
    (pinvF : Matrix (Fin rdim) (Fin rdim) ℚ → Matrix (Fin rdim) (Fin rdim) ℚ) :
    (mexFunction inp pinvF).allocated = true ∧
    (bcols ≠ rdim → numModes ≠ 0 → horizon ≠ 0 →
      (mexFunction inp pinvF).result = none) := by
  refine ⟨rfl, fun hb hm hh => ?_⟩
  show mexResult inp pinvF = none
  have h1 : ∀ dd, stateAfter inp pinvF (dd + 1) = none := by
    intro dd
    induction dd with
    | zero =>
      rw [stateAfter_succ, stateAfter_zero]
      show (stageStep inp.toSysData pinvF _ _).map Prod.fst = none
      rw [stageStep_none_of_bcols_ne _ _ _ _ hb hm]
      rfl
    | succ e ih => exact stateAfter_none_succ _ _ _ ih
  obtain ⟨e, he⟩ : ∃ e, horizon = e + 1 := ⟨horizon - 1, by omega⟩
  subst he
  exact mexResult_of_none _ _ (h1 e)

/-- C2, witness for the amended theorem at the concrete
dimension-inconsistent input `cInp2`. -/
theorem invalid_dimensions_behavior_witness :
    (mexFunction cInp2 pinv1).result = none :=
  (invalid_dimensions_behavior cInp2 pinv1).2 (by decide) (by decide) (by decide)

/-- C3 (a code bug): the code initialises `s1` and `s2` with length
`Asigma.n_cols = numModes` (resp. `Bsigma.n_cols = numModes`) instead
of `n` (resp. `p`), so the accumulations `s1 += T[j,m]·Asigma.col(m)`
and `s2 += T[j,m]·Bsigma.col(m)` throw a size-mismatch error whenever
`numModes ≠ n` (resp. `numModes ≠ p`): on `cInp3` (`numModes = 1`,
`n = 2`, `p = 1`, all matrices dimensionally consistent) the call
produces no result, while the control run on the scalar input
(`numModes = n = p = 1`) succeeds. -/
theorem s1_s2_dimension_bug :
    (mexFunction cInp3 pinv1).result = none ∧
    (mexFunction (mkScalarInputs 1 1 1 1 1 1 fun _ => 0) pinv1).result.isSome
      = true := by
  constructor
  · show mexResult cInp3 pinv1 = none
    apply mexResult_of_none
    rw [stateAfter_succ, stateAfter_zero]
    show (stageStep cInp3.toSysData pinv1 (refColAt cInp3 (1 - 1 - 0))
      (initVF cInp3)).map Prod.fst = none
    rw [stageStep_none_of_sdim_ne cInp3.toSysData pinv1 _ _ rfl (by decide) (by decide)]
    rfl
  · show (mexResult (mkScalarInputs 1 1 1 1 1 1 fun _ => 0) pinv1).isSome = true
    have hcond : (stateAfter (mkScalarInputs 1 1 1 1 1 1 fun _ => 0) pinv1 1).isSome
        = true := by
      rw [stateAfter_scalar]
      rfl
    rw [mexResult, if_pos hcond]
    rfl


theorem symmatu_one {n : ℕ} : symmatu (1 : Matrix (Fin n) (Fin n) ℚ) = 1 :=
  symmatu_of_symm 1 Matrix.transpose_one

theorem one_conj {n : ℕ} (X : Matrix (Fin n) (Fin n) ℚ) :
    (1 : Matrix (Fin n) (Fin n) ℚ)ᵀ * X * 1 = X := by
  rw [Matrix.transpose_one, Matrix.one_mul, Matrix.mul_one]

theorem pinvC1_one : pinvC1 1 = 1 := by
  unfold pinvC1
  rw [if_pos rfl]

theorem pinvC1_swap2 : pinvC1 !![0, 2; 2, 0] = !![0, (1 : ℚ)/2; 1/2, 0] := by
  unfold pinvC1
  rw [if_neg, if_pos rfl]
  intro hEq
  have h01 := congrFun (congrFun hEq 0) 1
  simp [Matrix.one_apply] at h01

theorem pinvC1_swap1 : pinvC1 !![0, 1; 1, 0] = !![0, 1; 1, 0] := by
  unfold pinvC1
  rw [if_neg, if_neg, if_pos rfl]
  · intro hEq
    have h01 := congrFun (congrFun hEq 0) 1
    norm_num at h01
  · intro hEq
    have h01 := congrFun (congrFun hEq 0) 1
    simp [Matrix.one_apply] at h01

theorem symmatu_QC1 : symmatu !![0, 2; 0, 0] = !![0, (2:ℚ); 2, 0] := by
  ext i i'
  fin_cases i <;> fin_cases i' <;> simp [symmatu]

theorem symHalf_apply {n : ℕ} (M : Matrix (Fin n) (Fin n) ℚ) (i i' : Fin n) :
    symHalf M i i' = 2⁻¹ * (M i i' + M i' i) := by
  simp [symHalf, Matrix.transpose_apply]

theorem symHalf_QC1 : symHalf !![0, 2; 0, 0] = !![0, (1:ℚ); 1, 0] := by
  ext i i'
  fin_cases i <;> fin_cases i' <;> simp [symHalf_apply]

theorem stage1_K_C1 (j : Fin 2) : KupdOf sysC1 pinvC1 vfInitC1 j = !![0, 2; 0, 0] := by
  have hP1 : P1of sysC1 vfInitC1 j =
      !![0, 2; 0, 0] + symmatu ((1 : Matrix (Fin 2) (Fin 2) ℚ)ᵀ * 1 * 1) :=
    (stage_quantities_const 1 1 !![0, 2; 0, 0] 0 1 1 (fun _ => 0) j
      (identity_rows_sum_one j)).1
  have hP2 : P2of sysC1 vfInitC1 j = (1 : Matrix (Fin 2) (Fin 2) ℚ)ᵀ * 1 * 1 :=
    (stage_quantities_const 1 1 !![0, 2; 0, 0] 0 1 1 (fun _ => 0) j
      (identity_rows_sum_one j)).2.1
  have hP3 : P3of sysC1 vfInitC1 j =
      0 + symmatu ((1 : Matrix (Fin 2) (Fin 2) ℚ)ᵀ * 1 * 1) :=
    (stage_quantities_const 1 1 !![0, 2; 0, 0] 0 1 1 (fun _ => 0) j
      (identity_rows_sum_one j)).2.2.1
  rw [one_conj] at hP1 hP2 hP3
  rw [symmatu_one] at hP1 hP3
  rw [zero_add] at hP3
  show P1of sysC1 vfInitC1 j - symmatu ((P2of sysC1 vfInitC1 j)ᵀ *
    pinvC1 (P3of sysC1 vfInitC1 j) * P2of sysC1 vfInitC1 j) = !![0, 2; 0, 0]
  rw [hP1, hP2, hP3, pinvC1_one, one_conj, symmatu_one, add_sub_cancel_right]


theorem refColAt_C1_one : refColAt cInpC1 (2 - 1 - 0) = fun _ => (0 : ℚ) := by
  funext i
  rw [refColAt, dif_pos (by omega)]
  rfl

theorem stage1_sigma_C1 (j : Fin 2) :
    sigUpdOf sysC1 pinvC1 (refColAt cInpC1 (2 - 1 - 0)) vfInitC1 j = fun _ => 0 := by
  have hs1 : s1of sysC1 vfInitC1 j =
      (1 : Matrix (Fin 2) (Fin 2) ℚ)ᵀ.mulVec (fun _ => 0) :=
    (stage_quantities_const 1 1 !![0, 2; 0, 0] 0 1 1 (fun _ => 0) j
      (identity_rows_sum_one j)).2.2.2.1
  have hs2 : s2of sysC1 vfInitC1 j =
      (1 : Matrix (Fin 2) (Fin 2) ℚ)ᵀ.mulVec (fun _ => 0) :=
    (stage_quantities_const 1 1 !![0, 2; 0, 0] 0 1 1 (fun _ => 0) j
      (identity_rows_sum_one j)).2.2.2.2.1
  have hz : (1 : Matrix (Fin 2) (Fin 2) ℚ)ᵀ.mulVec (fun _ => 0) = fun _ => 0 :=
    Matrix.mulVec_zero _
  rw [hz] at hs1 hs2
  show (fun i => refColAt cInpC1 (2 - 1 - 0) i + s1of sysC1 vfInitC1 j i) -
      ((P2of sysC1 vfInitC1 j)ᵀ * pinvC1 (P3of sysC1 vfInitC1 j)).mulVec
        (s2of sysC1 vfInitC1 j) = fun _ => 0
  rw [refColAt_C1_one, hs1, hs2]
  have hmv : ((P2of sysC1 vfInitC1 j)ᵀ * pinvC1 (P3of sysC1 vfInitC1 j)).mulVec
      (fun _ => 0) = fun _ => 0 := Matrix.mulVec_zero _
  rw [hmv]
  funext x
  simp

theorem stateAfter_C1_one : stateAfter cInpC1 pinvC1 1 = some vfMidC1 := by
  rw [stateAfter_succ, stateAfter_zero]
  show (stageStep cInpC1.toSysData pinvC1 (refColAt cInpC1 (2 - 1 - 0))
    (initVF cInpC1)).map Prod.fst = some vfMidC1
  have hTS : cInpC1.toSysData = sysC1 := rfl
  have hIV : initVF cInpC1 = vfInitC1 := rfl
  rw [hTS, hIV, stageStep_uniform]
  show some ⟨fun j => KupdOf sysC1 pinvC1 vfInitC1 j,
    fun j => sigUpdOf sysC1 pinvC1 (refColAt cInpC1 (2 - 1 - 0)) vfInitC1 j⟩ =
    some vfMidC1
  refine congrArg some (VF.ext ?_ ?_)
  · funext j
    exact stage1_K_C1 j
  · funext j
    exact stage1_sigma_C1 j


theorem P2of_C1_mid (j : Fin 2) : P2of sysC1 vfMidC1 j = !![0, 2; 0, 0] := by
  have hP2 : P2of sysC1 vfMidC1 j =
      (1 : Matrix (Fin 2) (Fin 2) ℚ)ᵀ * !![0, 2; 0, 0] * 1 :=
    (stage_quantities_const 1 1 !![0, 2; 0, 0] 0 1 !![0, 2; 0, 0] (fun _ => 0) j
      (identity_rows_sum_one j)).2.1
  rw [hP2, one_conj]

theorem P3of_C1_mid (j : Fin 2) : P3of sysC1 vfMidC1 j = !![0, 2; 2, 0] := by
  have hP3 : P3of sysC1 vfMidC1 j =
      0 + symmatu ((1 : Matrix (Fin 2) (Fin 2) ℚ)ᵀ * !![0, 2; 0, 0] * 1) :=
    (stage_quantities_const 1 1 !![0, 2; 0, 0] 0 1 !![0, 2; 0, 0] (fun _ => 0) j
      (identity_rows_sum_one j)).2.2.1
  rw [hP3, one_conj, zero_add, symmatu_QC1]

theorem specP3of_C1_mid (j : Fin 2) : specP3of sysC1 vfMidC1 j = !![0, 1; 1, 0] := by
  have hsp : specP3of sysC1 vfMidC1 j =
      0 + symHalf ((1 : Matrix (Fin 2) (Fin 2) ℚ)ᵀ * !![0, 2; 0, 0] * 1) :=
    (stage_quantities_const 1 1 !![0, 2; 0, 0] 0 1 !![0, 2; 0, 0] (fun _ => 0) j
      (identity_rows_sum_one j)).2.2.2.2.2
  rw [hsp, one_conj, zero_add, symHalf_QC1]

theorem gain_C1_code : gainOf sysC1 pinvC1 vfMidC1 0 = !![0, 0; 0, -1] := by
  show -(pinvC1 (P3of sysC1 vfMidC1 0) * P2of sysC1 vfMidC1 0) = !![0, 0; 0, -1]
  rw [P3of_C1_mid, P2of_C1_mid, pinvC1_swap2]
  ext i i'
  fin_cases i <;> fin_cases i' <;>
    simp [Matrix.mul_apply, Fin.sum_univ_two]

theorem gain_C1_spec :
    -(pinvC1 (specP3of sysC1 vfMidC1 0) * P2of sysC1 vfMidC1 0) = !![0, 0; 0, -2] := by
  rw [specP3of_C1_mid, P2of_C1_mid, pinvC1_swap1]
  ext i i'
  fin_cases i <;> fin_cases i' <;>
    simp [Matrix.mul_apply, Fin.sum_univ_two]


/-- A successful state at distance `dd` determines the next state by
the named update formulas (uniform dimensions). -/
theorem stateAfter_succ_of_some {d h : ℕ} (inp : Inputs d d d d h)
    (pinvF : Matrix (Fin d) (Fin d) ℚ → Matrix (Fin d) (Fin d) ℚ)
    (dd : ℕ) (st : VF d d) (hst : stateAfter inp pinvF dd = some st) :
    stateAfter inp pinvF (dd + 1) =
      some ⟨fun j => KupdOf inp.toSysData pinvF st j,
            fun j => sigUpdOf inp.toSysData pinvF (refColAt inp (h - 1 - dd)) st j⟩ := by
  rw [stateAfter_succ, hst]
  show (stageStep inp.toSysData pinvF (refColAt inp (h - 1 - dd)) st).map Prod.fst = _
  rw [stageStep_uniform]
  rfl

/-- A successful state at distance `dd` determines the slices written
for the stage at distance `dd` (uniform dimensions). -/
theorem stageOutAt_of_stateAfter {d h : ℕ} (inp : Inputs d d d d h)
    (pinvF : Matrix (Fin d) (Fin d) ℚ → Matrix (Fin d) (Fin d) ℚ)
    (dd : ℕ) (st : VF d d) (hst : stateAfter inp pinvF dd = some st) :
    stageOutAt inp pinvF dd =
      some ⟨fun j => gainOf inp.toSysData pinvF st j,
            fun j => ffOf inp.toSysData pinvF st j⟩ := by
  rw [stageOutAt, hst]
  show (stageStep inp.toSysData pinvF (refColAt inp (h - 1 - dd)) st).map Prod.snd = _
  rw [stageStep_uniform]
  rfl

/-- C1, counterexample: on `cInpC1` (non-symmetric state cost, legal
per the preconditions), the gain the code emits for stage `k = 0`
differs from the claim's formula `-pinv(P3)·P2` with
`P3 = Σ_m T[j,m]·(R[m] + sym(Bᵀ·K_next·B))`, `sym(X) = (X+Xᵀ)/2`:
the code computes `[[0,0],[0,-1]]` (it uses `symmatu`, the
upper-triangle reflection) while the claim's formula gives
`[[0,0],[0,-2]]`.  `vfMidC1` is the stage-1 value-function state
(`K_next` for `k = 0`), and the product identities certify that
`pinvC1` agrees with the Moore-Penrose pseudoinverse (the true
inverse) on both `P3` variants. -/
theorem gain_sym_vs_symmatu_cex :
    (mexResult cInpC1 pinvC1).map (fun out => out.1 0 0) = some !![0, 0; 0, -1] ∧
    -(pinvC1 (specP3of sysC1 vfMidC1 0) * P2of sysC1 vfMidC1 0) = !![0, 0; 0, -2] ∧
    stateAfter cInpC1 pinvC1 1 = some vfMidC1 ∧
    P3of sysC1 vfMidC1 0 * pinvC1 (P3of sysC1 vfMidC1 0) = 1 ∧
    pinvC1 (P3of sysC1 vfMidC1 0) * P3of sysC1 vfMidC1 0 = 1 ∧
    specP3of sysC1 vfMidC1 0 * pinvC1 (specP3of sysC1 vfMidC1 0) = 1 ∧
    pinvC1 (specP3of sysC1 vfMidC1 0) * specP3of sysC1 vfMidC1 0 = 1 ∧
    (!![0, 0; 0, -1] : Matrix (Fin 2) (Fin 2) ℚ) ≠ !![0, 0; 0, -2] := by
  have hcond2 : (stateAfter cInpC1 pinvC1 2).isSome = true := by
    rw [stateAfter_succ_of_some cInpC1 pinvC1 1 vfMidC1 stateAfter_C1_one]
    rfl
  refine ⟨?_, gain_C1_spec, stateAfter_C1_one, ?_, ?_, ?_, ?_, ?_⟩
  · rw [mexResult, if_pos hcond2, Option.map_some']
    refine congrArg some ?_
    have hso : stageOutAt cInpC1 pinvC1 (2 - 1 - (0 : Fin 2).val) =
        some ⟨fun j => gainOf cInpC1.toSysData pinvC1 vfMidC1 j,
              fun j => ffOf cInpC1.toSysData pinvC1 vfMidC1 j⟩ :=
      stageOutAt_of_stateAfter cInpC1 pinvC1 (2 - 1 - (0 : Fin 2).val) vfMidC1
        stateAfter_C1_one
    show ((stageOutAt cInpC1 pinvC1 (2 - 1 - (0 : Fin 2).val)).getD
      ⟨fun _ => 0, fun _ => 0⟩).1 0 = !![0, 0; 0, -1]
    rw [hso]
    exact gain_C1_code
  · rw [P3of_C1_mid, pinvC1_swap2]
    ext i i'
    fin_cases i <;> fin_cases i' <;>
      simp [Matrix.mul_apply, Fin.sum_univ_two, Matrix.one_apply]
  · rw [P3of_C1_mid, pinvC1_swap2]
    ext i i'
    fin_cases i <;> fin_cases i' <;>
      simp [Matrix.mul_apply, Fin.sum_univ_two, Matrix.one_apply]
  · rw [specP3of_C1_mid, pinvC1_swap1]
    ext i i'
    fin_cases i <;> fin_cases i' <;>
      simp [Matrix.mul_apply, Fin.sum_univ_two, Matrix.one_apply]
  · rw [specP3of_C1_mid, pinvC1_swap1]
    ext i i'
    fin_cases i <;> fin_cases i' <;>
      simp [Matrix.mul_apply, Fin.sum_univ_two, Matrix.one_apply]
  · intro hEq
    have h11 := congrFun (congrFun hEq 1) 1
    norm_num at h11


/-- C1, amended: whenever the call emits a result, the gain and
feedforward written for stage `k` and mode `j` are
`-pinv(P3)·P2` and `pinv(P3)·s2`, computed from the stage-`(k+1)`
value-function state (`stateAfter` at distance `h - 1 - k`), where
`P2 = Σ_m T[j,m]·Bᵀ[m]·K_next[m]·A[m]`,
`P3 = Σ_m T[j,m]·(R[m] + symmatu(Bᵀ[m]·K_next[m]·B[m]))` and
`s2 = Σ_m T[j,m]·Bᵀ[m]·σ_next[m]` — with `symmatu` (upper-triangle
reflection), not `(X + Xᵀ)/2`. -/
theorem emitted_gain_feedforward_formula {d h : ℕ}
    (inp : Inputs d d d d h)
    (pinvF : Matrix (Fin d) (Fin d) ℚ → Matrix (Fin d) (Fin d) ℚ)
    (k : Fin h) (st : VF d d)
    (hst : stateAfter inp pinvF (h - 1 - k.val) = some st)
    (hsome : (mexResult inp pinvF).isSome = true) (j : Fin d) :
    (mexResult inp pinvF).map (fun out => out.1 k j) =
      some (-(pinvF (P3of inp.toSysData st j) * P2of inp.toSysData st j)) ∧
    (mexResult inp pinvF).map (fun out => out.2 k j) =
      some ((pinvF (P3of inp.toSysData st j)).mulVec (s2of inp.toSysData st j)) := by
  have hcond : (stateAfter inp pinvF h).isSome = true := by
    by_contra hc
    rw [mexResult, if_neg hc] at hsome
    exact absurd hsome (by simp)
  have hso := stageOutAt_of_stateAfter inp pinvF (h - 1 - k.val) st hst
  constructor
  · rw [mexResult, if_pos hcond, Option.map_some']
    refine congrArg some ?_
    show ((stageOutAt inp pinvF (h - 1 - k.val)).getD ⟨fun _ => 0, fun _ => 0⟩).1 j = _
    rw [hso]
    rfl
  · rw [mexResult, if_pos hcond, Option.map_some']
    refine congrArg some ?_
    show ((stageOutAt inp pinvF (h - 1 - k.val)).getD ⟨fun _ => 0, fun _ => 0⟩).2 j = _
    rw [hso]
    rfl

/-- C1, witness at the scalar all-ones input with horizon 1. -/
theorem emitted_gain_feedforward_formula_witness :
    (mexResult (mkScalarInputs 1 1 1 1 1 1 fun _ => 0) pinv1).map
        (fun out => out.1 0 0) =
      some (-(pinv1 (P3of (mkScalarInputs 1 1 1 1 1 1 fun _ => 0).toSysData
            (initVF (mkScalarInputs 1 1 1 1 1 1 fun _ => 0)) 0) *
          P2of (mkScalarInputs 1 1 1 1 1 1 fun _ => 0).toSysData
            (initVF (mkScalarInputs 1 1 1 1 1 1 fun _ => 0)) 0)) :=
  (emitted_gain_feedforward_formula (mkScalarInputs 1 1 1 1 1 1 fun _ => 0) pinv1
    0 (initVF (mkScalarInputs 1 1 1 1 1 1 fun _ => 0))
    (stateAfter_zero (mkScalarInputs 1 1 1 1 1 1 fun _ => 0) pinv1)
    (by
      have hcond : (stateAfter (mkScalarInputs 1 1 1 1 1 1 fun _ => 0) pinv1 1).isSome
          = true := by
        rw [stateAfter_scalar]
        rfl
      rw [mexResult, if_pos hcond]
      rfl) 0).1


theorem symmatu_zero {n : ℕ} : symmatu (0 : Matrix (Fin n) (Fin n) ℚ) = 0 :=
  symmatu_of_symm 0 Matrix.transpose_zero

theorem symHalf_of_symm {n : ℕ} (M : Matrix (Fin n) (Fin n) ℚ) (h : Mᵀ = M) :
    symHalf M = M := by
  rw [symHalf, h, ← two_smul ℚ M, smul_smul]
  norm_num

theorem one_one_transpose (M : Matrix (Fin 1) (Fin 1) ℚ) : Mᵀ = M := by
  ext a b
  have ha : a = 0 := Subsingleton.elim a 0
  have hb : b = 0 := Subsingleton.elim b 0
  subst ha; subst hb
  rfl

theorem zero_conj {n : ℕ} (X : Matrix (Fin n) (Fin n) ℚ) :
    (0 : Matrix (Fin n) (Fin n) ℚ)ᵀ * X * 0 = 0 := by
  rw [Matrix.transpose_zero, Matrix.zero_mul, Matrix.mul_zero]

theorem P1of_C4_init (j : Fin 2) :
    P1of cInp4.toSysData (initVF cInp4) j = !![0, 1; 0, 0] := by
  have hP1 : P1of cInp4.toSysData (initVF cInp4) j =
      !![0, 1; 0, 0] + symmatu ((0 : Matrix (Fin 2) (Fin 2) ℚ)ᵀ * 0 * 0) :=
    (stage_quantities_const 0 0 !![0, 1; 0, 0] 0 1 0 (fun _ => 0) j
      (identity_rows_sum_one j)).1
  rw [hP1, zero_conj, symmatu_zero, add_zero]

theorem P2of_C4_init (j : Fin 2) :
    P2of cInp4.toSysData (initVF cInp4) j = 0 := by
  have hP2 : P2of cInp4.toSysData (initVF cInp4) j =
      (0 : Matrix (Fin 2) (Fin 2) ℚ)ᵀ * 0 * 0 :=
    (stage_quantities_const 0 0 !![0, 1; 0, 0] 0 1 0 (fun _ => 0) j
      (identity_rows_sum_one j)).2.1
  rw [hP2, zero_conj]

theorem P3of_C4_init (j : Fin 2) :
    P3of cInp4.toSysData (initVF cInp4) j = 0 := by
  have hP3 : P3of cInp4.toSysData (initVF cInp4) j =
      0 + symmatu ((0 : Matrix (Fin 2) (Fin 2) ℚ)ᵀ * 0 * 0) :=
    (stage_quantities_const 0 0 !![0, 1; 0, 0] 0 1 0 (fun _ => 0) j
      (identity_rows_sum_one j)).2.2.1
  rw [hP3, zero_conj, symmatu_zero, add_zero]

theorem stateAfter_C4_one :
    stateAfter cInp4 pinvZero 1 = some ⟨fun _ => !![0, 1; 0, 0], fun _ => fun _ => 0⟩ := by
  rw [stateAfter_succ_of_some cInp4 pinvZero 0 (initVF cInp4)
    (stateAfter_zero cInp4 pinvZero)]
  refine congrArg some (VF.ext ?_ ?_)
  · funext j
    show P1of cInp4.toSysData (initVF cInp4) j -
      symmatu ((P2of cInp4.toSysData (initVF cInp4) j)ᵀ *
        pinvZero (P3of cInp4.toSysData (initVF cInp4) j) *
        P2of cInp4.toSysData (initVF cInp4) j) = !![0, 1; 0, 0]
    rw [P1of_C4_init, P2of_C4_init, Matrix.transpose_zero, Matrix.zero_mul,
      Matrix.mul_zero, symmatu_zero, sub_zero]
  · funext j
    have hs1 : s1of cInp4.toSysData (initVF cInp4) j =
        (0 : Matrix (Fin 2) (Fin 2) ℚ)ᵀ.mulVec (fun _ => 0) :=
      (stage_quantities_const 0 0 !![0, 1; 0, 0] 0 1 0 (fun _ => 0) j
        (identity_rows_sum_one j)).2.2.2.1
    have hs2 : s2of cInp4.toSysData (initVF cInp4) j =
        (0 : Matrix (Fin 2) (Fin 2) ℚ)ᵀ.mulVec (fun _ => 0) :=
      (stage_quantities_const 0 0 !![0, 1; 0, 0] 0 1 0 (fun _ => 0) j
        (identity_rows_sum_one j)).2.2.2.2.1
    have hz : (0 : Matrix (Fin 2) (Fin 2) ℚ)ᵀ.mulVec (fun _ => 0) = fun _ => 0 :=
      Matrix.mulVec_zero _
    rw [hz] at hs1 hs2
    show (fun i => refColAt cInp4 (1 - 1 - 0) i + s1of cInp4.toSysData (initVF cInp4) j i) -
      ((P2of cInp4.toSysData (initVF cInp4) j)ᵀ *
        pinvZero (P3of cInp4.toSysData (initVF cInp4) j)).mulVec
          (s2of cInp4.toSysData (initVF cInp4) j) = fun _ => 0
    rw [hs1, hs2]
    have hmv : ((P2of cInp4.toSysData (initVF cInp4) j)ᵀ *
        pinvZero (P3of cInp4.toSysData (initVF cInp4) j)).mulVec (fun _ => 0) =
        fun _ => 0 := Matrix.mulVec_zero _
    rw [hmv]
    have hrc : refColAt cInp4 (1 - 1 - 0) = fun _ => (0 : ℚ) := by
      funext i
      rw [refColAt, dif_pos (by omega)]
      rfl
    rw [hrc]
    funext x
    simp

/-- C4, counterexample: on `cInp4` — whose `Q` is not symmetric, which
the claim's preconditions allow — the value-function matrix produced by
the first recursion step has `K[0,1] = 1` but `K[1,0] = 0`, so
`K ≠ Kᵀ`.  The only `P3` this run feeds to the pseudo-inverse is the
zero matrix, on which `pinvZero` agrees with the Moore-Penrose
pseudoinverse. -/
theorem K_symmetry_cex :
    (stateAfter cInp4 pinvZero 1).map (fun st => (st.K 0 0 1, st.K 0 1 0)) =
      some (1, 0) ∧
    P3of cInp4.toSysData (initVF cInp4) 0 = 0 ∧
    pinvZero (0 : Matrix (Fin 2) (Fin 2) ℚ) = 0 ∧
    (1 : ℚ) ≠ 0 := by
  refine ⟨?_, P3of_C4_init 0, rfl, one_ne_zero⟩
  rw [stateAfter_C4_one, Option.map_some']
  refine congrArg some ?_
  show ((!![0, 1; 0, 0] : Matrix (Fin 2) (Fin 2) ℚ) 0 1,
    (!![0, 1; 0, 0] : Matrix (Fin 2) (Fin 2) ℚ) 1 0) = (1, 0)
  norm_num


theorem stageCore_K_symmetric {numModes sdim bcols rdim : ℕ}
    (sys : SysData numModes sdim bcols rdim)
    (pinvF : Matrix (Fin rdim) (Fin rdim) ℚ → Matrix (Fin rdim) (Fin rdim) ℚ)
    (hqp : bcols = rdim) (r : Fin sdim → ℚ) (st : VF numModes sdim)
    (hQ : ∀ i, (sys.augQ i)ᵀ = sys.augQ i) (j : Fin numModes) :
    ((stageCore sys pinvF hqp r st).1.K j)ᵀ = (stageCore sys pinvF hqp r st).1.K j := by
  show (_ - symmatu _)ᵀ = _
  simp only [stageCore]
  rw [Matrix.transpose_sub, symmatu_transpose, Matrix.transpose_sum]
  refine congrArg₂ (fun X Y => X - Y) (Finset.sum_congr rfl fun m _ => ?_) rfl
  rw [Matrix.transpose_smul, Matrix.transpose_add, hQ, symmatu_transpose]

/-- C4, amended: if every state-cost matrix `Q[i]` is symmetric, then
every value-function matrix `K[stage, mode]` produced by a recursion
step is symmetric — by construction, through `symmatu`; symmetry of
the terminal cost is not needed.  (Without the symmetry assumption on
`Q` the invariant fails, see the counterexample.) -/
theorem K_symmetric_of_symmetric_Q {numModes sdim bcols rdim horizon : ℕ}
    (inp : Inputs numModes sdim bcols rdim horizon)
    (pinvF : Matrix (Fin rdim) (Fin rdim) ℚ → Matrix (Fin rdim) (Fin rdim) ℚ)
    (hQ : ∀ i, (inp.augQ i)ᵀ = inp.augQ i)
    (dd : ℕ) (st : VF numModes sdim)
    (hst : stateAfter inp pinvF (dd + 1) = some st) (j : Fin numModes) :
    (st.K j)ᵀ = st.K j := by
  obtain ⟨prev, out, hprev, hstep⟩ := stateAfter_succ_elim inp pinvF dd st hst
  rw [stageStep] at hstep
  by_cases h0 : numModes = 0
  · exact (Fin.cast h0 j).elim0
  · rw [dif_neg h0] at hstep
    by_cases hqp : bcols = rdim
    · rw [dif_pos hqp] at hstep
      by_cases hmn : numModes = sdim
      · rw [dif_pos hmn] at hstep
        by_cases hmq : numModes = bcols
        · rw [dif_pos hmq] at hstep
          have hpair := Option.some_inj.mp hstep
          have hK : (stageCore inp.toSysData pinvF hqp
              (refColAt inp (horizon - 1 - dd)) prev).1 = st :=
            congrArg Prod.fst hpair
          rw [← hK]
          exact stageCore_K_symmetric inp.toSysData pinvF hqp _ prev hQ j
        · rw [dif_neg hmq] at hstep
          exact Option.noConfusion hstep
      · rw [dif_neg hmn] at hstep
        exact Option.noConfusion hstep
    · rw [dif_neg hqp] at hstep
      exact Option.noConfusion hstep

/-- C4, witness: the amended theorem applied to the scalar all-ones
input (whose `Q = [1]` is symmetric) at the state after one step. -/
theorem K_symmetric_of_symmetric_Q_witness :
    ((⟨fun _ => !![lqrK 1 1 1 1 1 1],
       fun _ _ => lqrSigma 1 1 1 1 1 1 (fun _ => 0) 1⟩ : VF 1 1).K 0)ᵀ =
      (⟨fun _ => !![lqrK 1 1 1 1 1 1],
        fun _ _ => lqrSigma 1 1 1 1 1 1 (fun _ => 0) 1⟩ : VF 1 1).K 0 :=
  K_symmetric_of_symmetric_Q (mkScalarInputs 1 1 1 1 1 1 fun _ => 0) pinv1
    (fun _ => one_one_transpose _) 0 _
    (stateAfter_scalar 1 1 1 1 1 1 (fun _ => 0) 1) 0


theorem symHalf_QC4 : symHalf !![0, 1; 0, 0] = !![0, (1:ℚ)/2; 1/2, 0] := by
  ext i i'
  fin_cases i <;> fin_cases i' <;> simp [symHalf_apply]

/-- C5, counterexample: on `cInp4` (non-symmetric `Q`, allowed by the
preconditions) the `K` produced by the recursion step is
`[[0,1],[0,0]]`, while `sym(P1 − P2ᵀ·pinv(P3)·P2)` with
`sym(X) = (X + Xᵀ)/2` applied to the whole expression — as the claim
states — is `[[0,1/2],[1/2,0]]`; the two differ.  (`P2 = 0` here, so
the value of the pseudo-inverse is irrelevant; `pinvZero` agrees with
the Moore-Penrose pseudoinverse on the zero `P3` of this run.) -/
theorem K_update_whole_sym_cex :
    (stateAfter cInp4 pinvZero 1).map (fun st => st.K 0) = some !![0, 1; 0, 0] ∧
    symHalf (P1of cInp4.toSysData (initVF cInp4) 0 -
      (P2of cInp4.toSysData (initVF cInp4) 0)ᵀ *
        pinvZero (P3of cInp4.toSysData (initVF cInp4) 0) *
        P2of cInp4.toSysData (initVF cInp4) 0) = !![0, (1:ℚ)/2; 1/2, 0] ∧
    (!![0, 1; 0, 0] : Matrix (Fin 2) (Fin 2) ℚ) ≠ !![0, (1:ℚ)/2; 1/2, 0] := by
  refine ⟨?_, ?_, ?_⟩
  · rw [stateAfter_C4_one, Option.map_some']
  · rw [P1of_C4_init, P2of_C4_init, Matrix.transpose_zero, Matrix.zero_mul,
      Matrix.mul_zero, sub_zero, symHalf_QC4]
  · intro hEq
    have h01 := congrFun (congrFun hEq 0) 1
    norm_num at h01

/-- C5, amended: at each stage the value-function update is
`K[j] = P1 − symmatu(P2ᵀ·pinv(P3)·P2)` — the symmetrisation is
armadillo's `symmatu` (upper-triangle reflection) and it is applied to
the product term only, not to the whole expression; when every `Q[i]`
is symmetric and `pinv(P3)` is symmetric this coincides with
`sym(P1 − P2ᵀ·pinv(P3)·P2)`, `sym(X) = (X + Xᵀ)/2`, applied to the
whole expression.  `σ[j] = RefWeightings[:,k] + s1 − P2ᵀ·pinv(P3)·s2`,
and the final iteration (`dd = h − 1`, stage `k = 0`) reads reference
column `0`. -/
theorem value_function_update_formula {d h : ℕ}
    (inp : Inputs d d d d h)
    (pinvF : Matrix (Fin d) (Fin d) ℚ → Matrix (Fin d) (Fin d) ℚ)
    (dd : ℕ) (st st' : VF d d)
    (hst : stateAfter inp pinvF dd = some st)
    (hst' : stateAfter inp pinvF (dd + 1) = some st') (j : Fin d) :
    st'.K j = P1of inp.toSysData st j -
      symmatu ((P2of inp.toSysData st j)ᵀ * pinvF (P3of inp.toSysData st j) *
        P2of inp.toSysData st j) ∧
    st'.sigma j = (fun i => refColAt inp (h - 1 - dd) i +
        s1of inp.toSysData st j i) -
      ((P2of inp.toSysData st j)ᵀ * pinvF (P3of inp.toSysData st j)).mulVec
        (s2of inp.toSysData st j) ∧
    ((∀ i, (inp.augQ i)ᵀ = inp.augQ i) →
      (pinvF (P3of inp.toSysData st j))ᵀ = pinvF (P3of inp.toSysData st j) →
      st'.K j = symHalf (P1of inp.toSysData st j -
        (P2of inp.toSysData st j)ᵀ * pinvF (P3of inp.toSysData st j) *
          P2of inp.toSysData st j)) ∧
    (dd = h - 1 → 1 ≤ h →
      refColAt inp (h - 1 - dd) = fun i => inp.refWeightings i ⟨0, Nat.succ_pos h⟩) := by
  have hnext := stateAfter_succ_of_some inp pinvF dd st hst
  rw [hst'] at hnext
  obtain rfl := Option.some_inj.mp hnext
  have hP1sym : (∀ i, (inp.augQ i)ᵀ = inp.augQ i) →
      (P1of inp.toSysData st j)ᵀ = P1of inp.toSysData st j := by
    intro hQ
    simp only [P1of, QAKAof]
    rw [Matrix.transpose_sum]
    refine Finset.sum_congr rfl fun m _ => ?_
    rw [Matrix.transpose_smul, Matrix.transpose_add, hQ, symmatu_transpose]
  refine ⟨rfl, rfl, ?_, ?_⟩
  · intro hQ hpinv
    have hXsym : ((P2of inp.toSysData st j)ᵀ * pinvF (P3of inp.toSysData st j) *
        P2of inp.toSysData st j)ᵀ =
        (P2of inp.toSysData st j)ᵀ * pinvF (P3of inp.toSysData st j) *
          P2of inp.toSysData st j := by
      rw [Matrix.transpose_mul, Matrix.transpose_mul, Matrix.transpose_transpose,
        hpinv, Matrix.mul_assoc]
    show P1of inp.toSysData st j - symmatu _ = _
    rw [symmatu_of_symm _ hXsym]
    rw [symHalf_of_symm]
    rw [Matrix.transpose_sub, hXsym, hP1sym hQ]
  · intro hdd hh
    subst hdd
    rw [Nat.sub_self]
    funext i
    rw [refColAt, dif_pos (Nat.succ_pos h)]

/-- C5, witness: the amended theorem applied to the scalar all-ones
input at the first recursion step. -/
theorem value_function_update_formula_witness :
    (⟨fun _ => !![lqrK 1 1 1 1 1 1],
      fun _ _ => lqrSigma 1 1 1 1 1 1 (fun _ => 0) 1⟩ : VF 1 1).K 0 =
      P1of (mkScalarInputs 1 1 1 1 1 1 fun _ => 0).toSysData
          (initVF (mkScalarInputs 1 1 1 1 1 1 fun _ => 0)) 0 -
        symmatu ((P2of (mkScalarInputs 1 1 1 1 1 1 fun _ => 0).toSysData
            (initVF (mkScalarInputs 1 1 1 1 1 1 fun _ => 0)) 0)ᵀ *
          pinv1 (P3of (mkScalarInputs 1 1 1 1 1 1 fun _ => 0).toSysData
            (initVF (mkScalarInputs 1 1 1 1 1 1 fun _ => 0)) 0) *
          P2of (mkScalarInputs 1 1 1 1 1 1 fun _ => 0).toSysData
            (initVF (mkScalarInputs 1 1 1 1 1 1 fun _ => 0)) 0) :=
  (value_function_update_formula (mkScalarInputs 1 1 1 1 1 1 fun _ => 0) pinv1
    0 (initVF (mkScalarInputs 1 1 1 1 1 1 fun _ => 0)) _
    (stateAfter_zero (mkScalarInputs 1 1 1 1 1 1 fun _ => 0) pinv1)
    (stateAfter_scalar 1 1 1 1 1 1 (fun _ => 0) 1) 0).1


/-- C7: the recursion is strictly backward — the state and the slices
written at distance `dd` from the terminal stage depend only on the
immutable inputs and the terminal data.  Consequently a horizon-`(h+1)`
solve whose reference sequence extends the horizon-`h` sequence at the
front (same system, same terminal cost, reference shifted by one
column) produces, at each distance from the terminal stage, exactly
the same value-function states and the same gain/feedforward slices. -/
theorem backward_dependency_horizon_extension
    {numModes sdim bcols rdim h : ℕ}
    (inp : Inputs numModes sdim bcols rdim h)
    (inp' : Inputs numModes sdim bcols rdim (h + 1))
    (pinvF : Matrix (Fin rdim) (Fin rdim) ℚ → Matrix (Fin rdim) (Fin rdim) ℚ)
    (hsys : inp'.toSysData = inp.toSysData)
    (hK : inp'.terminalK = inp.terminalK)
    (href : ∀ (i : Fin sdim) (c : Fin (h + 1)),
      inp'.refWeightings i ⟨c.val + 1, Nat.succ_lt_succ c.isLt⟩ =
        inp.refWeightings i c) :
    (∀ dd, dd ≤ h → stateAfter inp' pinvF dd = stateAfter inp pinvF dd) ∧
    (∀ dd, dd < h → stageOutAt inp' pinvF dd = stageOutAt inp pinvF dd) := by
  have hrc : ∀ dd, dd + 1 ≤ h →
      refColAt inp' (h + 1 - 1 - dd) = refColAt inp (h - 1 - dd) := by
    intro dd hdd
    funext i
    rw [refColAt, refColAt, dif_pos (by omega), dif_pos (by omega)]
    have hval : (⟨h + 1 - 1 - dd, by omega⟩ : Fin (h + 1 + 1)) =
        ⟨h - 1 - dd + 1, by omega⟩ :=
      Fin.ext (show h + 1 - 1 - dd = h - 1 - dd + 1 by omega)
    rw [hval]
    exact href i ⟨h - 1 - dd, by omega⟩
  have hstate : ∀ dd, dd ≤ h →
      stateAfter inp' pinvF dd = stateAfter inp pinvF dd := by
    intro dd
    induction dd with
    | zero =>
      intro _
      rw [stateAfter_zero, stateAfter_zero]
      refine congrArg some (VF.ext ?_ ?_)
      · funext i
        exact hK
      · funext i x
        exact href x ⟨h, Nat.lt_succ_self h⟩
    | succ dd ih =>
      intro hdd
      rw [stateAfter_succ, stateAfter_succ, ih (by omega), hsys, hrc dd hdd]
  refine ⟨hstate, fun dd hdd => ?_⟩
  rw [stageOutAt, stageOutAt, hstate dd (Nat.le_of_lt hdd), hsys, hrc dd hdd]

/-- C7, witness: scalar system, horizon 1 versus horizon 2 with the
reference sequence extended at the front by one (arbitrary) column. -/
theorem backward_dependency_horizon_extension_witness :
    stageOutAt (mkScalarInputs 1 1 1 1 1 2
        (fun t => if t = 0 then 37 else ((t : ℚ) - 1))) pinv1 0 =
      stageOutAt (mkScalarInputs 1 1 1 1 1 1 (fun t => (t : ℚ))) pinv1 0 :=
  (backward_dependency_horizon_extension
    (mkScalarInputs 1 1 1 1 1 1 (fun t => (t : ℚ)))
    (mkScalarInputs 1 1 1 1 1 2 (fun t => if t = 0 then 37 else ((t : ℚ) - 1)))
    pinv1 rfl rfl
    (by
      intro i c
      show (if c.val + 1 = 0 then (37 : ℚ) else ((c.val + 1 : ℕ) : ℚ) - 1) = (c.val : ℚ)
      rw [if_neg (Nat.succ_ne_zero c.val)]
      push_cast
      ring)).2 0 (by omega)

/-- C8: with `numModes = 1` and transition matrix `[[1]]` (the scalar
instance `mkScalarInputs`), the recursion computes exactly the
standard single-mode finite-horizon linear-quadratic tracking Riccati
recursion (`lqrK`/`lqrSigma`/`lqrGain`/`lqrFF`), and for the scalar
system `A = B = Q = R = 1`, terminal `K = 1`, horizon `2`, the two
emitted gains equal the hand-computed values `-3/5` (stage 0) and
`-1/2` (stage 1). -/
theorem single_mode_riccati_reduction (a b q r kT : ℚ) (h : ℕ) (ref : ℕ → ℚ) :
    (∀ t, stateAfter (mkScalarInputs a b q r kT h ref) pinv1 t =
      some ⟨fun _ => !![lqrK a b q r kT t],
            fun _ _ => lqrSigma a b q r kT h ref t⟩) ∧
    (∀ t, t < h → stageOutAt (mkScalarInputs a b q r kT h ref) pinv1 t =
      some ⟨fun _ => !![lqrGain a b q r kT t],
            fun _ _ => lqrFF a b q r kT h ref t⟩) ∧
    (mexResult (mkScalarInputs 1 1 1 1 1 2 fun _ => 0) pinv1).map
        (fun out => (out.1 0 0 0 0, out.1 1 0 0 0)) =
      some (-(3/5), -(1/2)) := by
  refine ⟨stateAfter_scalar a b q r kT h ref,
    fun t _ => stageOutAt_scalar a b q r kT h ref t, ?_⟩
  have hcond : (stateAfter (mkScalarInputs 1 1 1 1 1 2 fun _ => 0) pinv1 2).isSome
      = true := by
    rw [stateAfter_scalar]
    rfl
  rw [mexResult, if_pos hcond, Option.map_some']
  refine congrArg some ?_
  show (((stageOutAt (mkScalarInputs 1 1 1 1 1 2 fun _ => 0) pinv1
      (2 - 1 - (0 : Fin 2).val)).getD ⟨fun _ => 0, fun _ => 0⟩).1 0 0 0,
    ((stageOutAt (mkScalarInputs 1 1 1 1 1 2 fun _ => 0) pinv1
      (2 - 1 - (1 : Fin 2).val)).getD ⟨fun _ => 0, fun _ => 0⟩).1 0 0 0) =
    (-(3/5), -(1/2))
  rw [stageOutAt_scalar 1 1 1 1 1 2 (fun _ => 0) (2 - 1 - (0 : Fin 2).val),
    stageOutAt_scalar 1 1 1 1 1 2 (fun _ => 0) (2 - 1 - (1 : Fin 2).val)]
  show (lqrGain 1 1 1 1 1 1, lqrGain 1 1 1 1 1 0) = (-(3/5), -(1/2))
  norm_num [Prod.ext_iff, lqrGain, lqrK]


/-- C8, witness: the per-stage correspondence applied at horizon `1`,
distance `0` from the terminal stage. -/
theorem single_mode_riccati_reduction_witness :
    stageOutAt (mkScalarInputs 1 1 1 1 1 1 fun _ => 0) pinv1 0 =
      some ⟨fun _ => !![lqrGain 1 1 1 1 1 0],
            fun _ _ => lqrFF 1 1 1 1 1 1 (fun _ => 0) 0⟩ :=
  (single_mode_riccati_reduction 1 1 1 1 1 1 (fun _ => 0)).2.1 0 (by omega)

/-- C9, counterexample: `cInp3` satisfies the stated preconditions and
has `R[0] = 0`, yet the recursion does not complete — the `s1`
length-initialisation slip (C3) throws because `numModes = 1 ≠ n = 2`,
so no finite result is emitted at all. -/
theorem zero_R_completes_cex : (mexFunction cInp3 pinv1).result = none := by
  show mexResult cInp3 pinv1 = none
  apply mexResult_of_none
  rw [stateAfter_succ, stateAfter_zero]
  show (stageStep cInp3.toSysData pinv1 (refColAt cInp3 (1 - 1 - 0))
    (initVF cInp3)).map Prod.fst = none
  rw [stageStep_none_of_sdim_ne cInp3.toSysData pinv1 _ _ rfl (by decide) (by decide)]
  rfl

/-- C9, amended: on inputs whose dimensions admit a successful run
(`numModes = n = p`, forced by the `s1`/`s2` initialisation),
`R[mode] = 0` does not prevent completion.  Any matrix satisfying the
Moore-Penrose equation `X·0·X = X` for the zero matrix is zero, `pinv1`
maps the zero matrix to the zero matrix, and on the degenerate scalar
input (`R = 0`, `B = 0`, so `P3 = 0`) the run completes with gain and
feedforward `0` — the minimum-norm solution of the degenerate normal
equation `P3·x = -P2`, as the last conjunct states. -/
theorem zero_R_pinv_minimum_norm :
    (∀ (n : ℕ) (X : Matrix (Fin n) (Fin n) ℚ),
      X * (0 : Matrix (Fin n) (Fin n) ℚ) * X = X → X = 0) ∧
    pinv1 0 = 0 ∧
    P3of (mkScalarInputs 1 0 1 0 1 1 fun _ => 0).toSysData
      (initVF (mkScalarInputs 1 0 1 0 1 1 fun _ => 0)) 0 = 0 ∧
    (mexResult (mkScalarInputs 1 0 1 0 1 1 fun _ => 0) pinv1).map
      (fun out => (out.1 0 0 0 0, out.2 0 0 0)) = some (0, 0) ∧
    (∀ x : ℚ,
      P3of (mkScalarInputs 1 0 1 0 1 1 fun _ => 0).toSysData
          (initVF (mkScalarInputs 1 0 1 0 1 1 fun _ => 0)) 0 0 0 * x =
        -(P2of (mkScalarInputs 1 0 1 0 1 1 fun _ => 0).toSysData
          (initVF (mkScalarInputs 1 0 1 0 1 1 fun _ => 0)) 0 0 0) →
      |gainOf (mkScalarInputs 1 0 1 0 1 1 fun _ => 0).toSysData pinv1
        (initVF (mkScalarInputs 1 0 1 0 1 1 fun _ => 0)) 0 0 0| ≤ |x|) := by
  refine ⟨?_, ?_, ?_, ?_, ?_⟩
  · intro n X h
    rw [Matrix.mul_zero, Matrix.zero_mul] at h
    exact h.symm
  · ext a b
    have ha : a = 0 := Subsingleton.elim a 0
    have hb : b = 0 := Subsingleton.elim b 0
    subst ha; subst hb
    simp [pinv1]
  · ext i i'
    rw [P3of_scalar]
    norm_num
  · have hcond : (stateAfter (mkScalarInputs 1 0 1 0 1 1 fun _ => 0) pinv1 1).isSome
        = true := by
      rw [stateAfter_scalar]
      rfl
    rw [mexResult, if_pos hcond, Option.map_some']
    refine congrArg some ?_
    show (((stageOutAt (mkScalarInputs 1 0 1 0 1 1 fun _ => 0) pinv1
        (1 - 1 - (0 : Fin 1).val)).getD ⟨fun _ => 0, fun _ => 0⟩).1 0 0 0,
      ((stageOutAt (mkScalarInputs 1 0 1 0 1 1 fun _ => 0) pinv1
        (1 - 1 - (0 : Fin 1).val)).getD ⟨fun _ => 0, fun _ => 0⟩).2 0 0) = (0, 0)
    rw [stageOutAt_scalar 1 0 1 0 1 1 (fun _ => 0) (1 - 1 - (0 : Fin 1).val)]
    show (lqrGain 1 0 1 0 1 0, lqrFF 1 0 1 0 1 1 (fun _ => 0) 0) = (0, 0)
    norm_num [Prod.ext_iff, lqrGain, lqrFF, lqrK]
  · intro x hx
    have hg : gainOf (mkScalarInputs 1 0 1 0 1 1 fun _ => 0).toSysData pinv1
        (initVF (mkScalarInputs 1 0 1 0 1 1 fun _ => 0)) 0 0 0 = 0 := by
      show (-(pinv1 (P3of (mkScalarInputs 1 0 1 0 1 1 fun _ => 0).toSysData
          (initVF (mkScalarInputs 1 0 1 0 1 1 fun _ => 0)) 0) *
        P2of (mkScalarInputs 1 0 1 0 1 1 fun _ => 0).toSysData
          (initVF (mkScalarInputs 1 0 1 0 1 1 fun _ => 0)) 0)) 0 0 = 0
      rw [Matrix.neg_apply, mul_apply_one, pinv1_apply, P3of_scalar, P2of_scalar]
      norm_num
    rw [hg, abs_zero]
    exact abs_nonneg x

/-- C9, witness for the amended theorem: the Moore-Penrose part at
`X = 0` and the minimum-norm part at `x = 3`. -/
theorem zero_R_pinv_minimum_norm_witness :
    (0 : Matrix (Fin 1) (Fin 1) ℚ) = 0 ∧
    |gainOf (mkScalarInputs 1 0 1 0 1 1 fun _ => 0).toSysData pinv1
      (initVF (mkScalarInputs 1 0 1 0 1 1 fun _ => 0)) 0 0 0| ≤ |(3 : ℚ)| :=
  ⟨zero_R_pinv_minimum_norm.1 1 0 (by simp),
   zero_R_pinv_minimum_norm.2.2.2.2 3 (by
     rw [P3of_scalar, P2of_scalar]
     norm_num)⟩

end FHTC
